import Mathlib

/-!
Verification of the `model_reflect` library: a shallow embedding of the
signature builder and fingerprint reducer, together with theorems settling
the specification's claims.

The host language's runtime type descriptors (`reflect.Type`) form a finite,
possibly cyclic graph.  We embed that graph as an environment: a finite
association list from numeric type identifiers to type descriptors.  Struct
fields reference their type by identifier.  Pointer identity of
`reflect.Type` values (used by the source for cycle detection via
`slices.Index`) becomes equality of identifiers.

The recursive walkers (`expandField`, `typeToString`) recurse along the type
graph; the source guarantees termination through its per-branch ancestry
lists.  We embed them with an explicit recursion-depth budget (`fuel`) so the
definitions are structurally recursive and kernel-computable, and prove
(claim C3) that any budget exceeding the number of yet-unvisited environment
entries yields the same result — i.e. the walk terminates and the budget is
irrelevant; the exported wrappers use budget `env.length + 1`, which is
always sufficient because each recursive call pushes a fresh environment key
onto the ancestry path.

The memory-hard hash (`argon2.IDKey` from golang.org/x/crypto, an external
dependency, not part of this repository) is treated as an opaque
deterministic function and passed as a parameter to `ModelInfo.Hash`.
-/

namespace ModelReflect

/-- A struct field as exposed by the type-descriptor API: declared name,
type identifier, exportedness, embeddedness (`Anonymous`), and its tag set
(an association of tag keys to tag values; `reflect.StructTag.Get` returns
`""` for an absent key). -/
structure SField where
  name : String
  typeId : Nat
  exported : Bool
  anonymous : Bool
  tags : List (String × String)
deriving DecidableEq

/-- The body of a type descriptor.  `prim k` covers every concrete
non-container kind (int, string, bool, float32, ...) with `k` the kind's
canonical name as printed by `reflect.Kind.String`.  A struct node carries
its declared fields and the list of capability-interface names (from
`DefaultInterfaces`) that a pointer to the type implements; method sets are
outside the descriptor data the source walks, so this list is descriptor
data here, and `checkInterfaces` sorts it exactly as the source sorts its
collected matches. -/
inductive TBody where
  | prim (kindName : String)
  | ptr (elem : Nat)
  | slice (elem : Nat)
  | arr (len : Nat) (elem : Nat)
  | tmap (key : Nat) (elem : Nat)
  | strct (fields : List SField) (caps : List String)
  | interf
  | func
  | chan
  | unsafePointer
deriving DecidableEq

/-- A type descriptor: the name `fmt`'s `%s` prints for the type, plus the
kind-specific body. -/
structure TDesc where
  name : String
  body : TBody
deriving DecidableEq

/-- The type-descriptor graph: identifiers mapped to descriptors. -/
abbrev Env := List (Nat × TDesc)

/-- `reflect.StructTag.Get`: value of a tag key, `""` when absent. -/
def tagGet (tags : List (String × String)) (key : String) : String :=
  match tags.find? (fun p => p.1 = key) with
  | some p => p.2
  | none => ""

/-- Look a type identifier up in the environment. -/
def lookupType (env : Env) (i : Nat) : Option TDesc :=
  (env.find? (fun p => p.1 = i)).map (fun p => p.2)

/-- The identifiers present in the environment. -/
def envKeys (env : Env) : List Nat := env.map Prod.fst

/-- The display name of a type (what `%s` formatting prints). -/
def typeName (env : Env) (i : Nat) : String :=
  match lookupType env i with
  | some d => d.name
  | none => ""

/-- One unwrap step of `baseType`'s pointer loop, with a recursion budget.
The Go loop (`for t.Kind() == reflect.Ptr`, model_reflect.go lines 89-94)
carries no cycle guard and therefore need not terminate; its exact
step-indexed model is `baseTypeO` below.  `baseTypeFuel` truncates the loop
at the budget: whenever the loop completes at all, the two agree and the
wrapper's budget `env.length + 1` suffices, because a completing chain of
pointer nodes is duplicate-free (proved in `baseTypeO_complete`).  On a
pointer-cyclic graph the loop never completes and the program diverges
(claim C3's counterexample `envPtrLoop`); there the truncated value is a
modelling artefact that only keeps the remaining walk total. -/
def baseTypeFuel (env : Env) : Nat → Nat → Nat
  | 0, i => i
  | fuel + 1, i =>
    match lookupType env i with
    | some ⟨_, TBody.ptr e⟩ => baseTypeFuel env fuel e
    | _ => i

/-- `baseType`: resolve through all pointer indirections. -/
def baseType (env : Env) (i : Nat) : Nat :=
  baseTypeFuel env (env.length + 1) i

/-- The pointer-unwrap loop of `baseType` (model_reflect.go lines 89-94)
modelled exactly: the loop runs with no cycle guard, so it need not
terminate.  `baseTypeO env fuel i` performs at most `fuel` unwrap
iterations and returns `none` when the loop has not completed within them;
the loop terminates on `i` precisely when some budget returns `some`.  On a
pointer-cyclic descriptor graph (`type P *P`, graph `envPtrLoop`) every
budget returns `none`: the source's `typeToString` resolves `baseType`
before consulting the ancestry guard, so `New` diverges there. -/
def baseTypeO (env : Env) : Nat → Nat → Option Nat
  | 0, _ => none
  | fuel + 1, i =>
    match lookupType env i with
    | some (TDesc.mk _ (TBody.ptr e)) => baseTypeO env fuel e
    | _ => some i

/-- The kind test of `isConcrete` (model_reflect.go lines 96-103): pointer,
unsafe-pointer, interface, func and chan kinds are not concrete. -/
def isConcreteBody : TBody → Bool
  | TBody.ptr _ => false
  | TBody.unsafePointer => false
  | TBody.interf => false
  | TBody.func => false
  | TBody.chan => false
  | _ => true

/-- `isConcrete` at an identifier (an identifier absent from the
environment has no kind; it is treated as not concrete, which is
unreachable for graphs produced by the runtime). -/
def isConcrete (env : Env) (i : Nat) : Bool :=
  match lookupType env i with
  | some d => isConcreteBody d.body
  | none => false

/-- `reflect.Kind.String` for the kinds a descriptor body can have;
`typeToString`'s default branch prints this. -/
def kindString : TBody → String
  | TBody.prim k => k
  | TBody.ptr _ => "ptr"
  | TBody.slice _ => "slice"
  | TBody.arr _ _ => "array"
  | TBody.tmap _ _ => "map"
  | TBody.strct _ _ => "struct"
  | TBody.interf => "interface"
  | TBody.func => "func"
  | TBody.chan => "chan"
  | TBody.unsafePointer => "unsafe.Pointer"

/-- Byte-wise lexicographic comparison of strings as Go's `<=` on `string`
performs it, expressed on the scalar-value sequences (UTF-8 byte order
coincides with scalar-value order). -/
def charListLe : List Char → List Char → Bool
  | [], _ => true
  | _ :: _, [] => false
  | a :: as, b :: bs =>
    if a.val < b.val then true
    else if b.val < a.val then false
    else charListLe as bs

/-- Go's `a <= b` on strings. -/
def strLe (a b : String) : Bool := charListLe a.toList b.toList

/-- `sort.Strings`: sort a list of strings (insertion sort; any sorted
permutation is the same list). -/
def sortStrings (l : List String) : List String :=
  List.insertionSort (fun a b => strLe a b = true) l

/-- `checkInterfaces`: the capability-interface names satisfied by a pointer
to the type, sorted for determinism.  Only struct nodes carry capability
data (the source only invokes this on struct kinds). -/
def checkInterfaces (env : Env) (i : Nat) : List String :=
  match lookupType env i with
  | some ⟨_, TBody.strct _ caps⟩ => sortStrings caps
  | _ => []

/-- Message of `fmt.Errorf("%w in %s", ErrLoopDetected, t)`. -/
def loopMsg (env : Env) (i : Nat) : String :=
  "loop detected in " ++ typeName env i

/-- Message of `fmt.Errorf("%w %s", ErrEmptyStruct, t)`. -/
def emptyMsg (env : Env) (i : Nat) : String :=
  "empty struct " ++ typeName env i

/-- Message of the duplicate-fields diagnostic
`fmt.Errorf("type %s (embed level %d): %w [%d]%s", ...)`. -/
def dupMsg (env : Env) (i : Nat) (level cnt : Nat) (name : String) : String :=
  "type " ++ typeName env i ++ " (embed level " ++ toString level ++
    "): duplicate fields [" ++ toString cnt ++ "]" ++ name

/-- `for depth >= len(*result) { *result = append(*result, ...) }`:
pad the per-depth buckets so index `depth` exists. -/
def ensureLevels (result : List (List SField)) (depth : Nat) : List (List SField) :=
  result ++ List.replicate (depth + 1 - result.length) []

/-- `(*result)[depth] = append((*result)[depth], f)`. -/
def appendAt (result : List (List SField)) (depth : Nat) (f : SField) :
    List (List SField) :=
  result.set depth ((result.getD depth []) ++ [f])

/-- `expandField` (model_reflect.go lines 105-127), with a recursion budget:
record a non-anonymous (or non-struct-typed) field at the current depth;
expand an anonymous struct field's own fields one depth deeper; abort the
branch with a `LoopDetected` error when the base type already occurs on the
ancestry path.  Returns the updated buckets and the produced errors. -/
def expandFieldFuel :
    Nat → Env → SField → List Nat → List (List SField) →
      List (List SField) × List String
  | 0, _, _, _, result => (result, [])
  | fuel + 1, env, f, types, result =>
    let depth := types.length
    let result := ensureLevels result depth
    let t := baseType env f.typeId
    if t ∈ types then
      (result, [loopMsg env t])
    else
      match lookupType env t with
      | some ⟨_, TBody.strct fields _⟩ =>
        if f.anonymous then
          fields.foldl
            (fun p g =>
              let q := expandFieldFuel fuel env g (types ++ [t]) p.1
              (q.1, p.2 ++ q.2))
            (result, [])
        else
          (appendAt result depth f, [])
      | _ => (appendAt result depth f, [])

/-- The expansion loop over a list of fields with a shared bucket list and
accumulated errors (the body of `structFields`' top loop and of
`expandField`'s recursion over an embedded struct's fields). -/
def expandFoldFuel (fuel : Nat) (env : Env) (fs : List SField) (types : List Nat)
    (result : List (List SField)) : List (List SField) × List String :=
  fs.foldl
    (fun p g =>
      let q := expandFieldFuel fuel env g types p.1
      (q.1, p.2 ++ q.2))
    (result, [])

/-- The loop of `structFields` that expands each declared field (each with a
fresh `nil` ancestry but a shared bucket list). -/
def expandStruct (env : Env) (fields : List SField) :
    List (List SField) × List String :=
  expandFoldFuel (env.length + 1) env fields [] []

/-- `counts[name]++` on a map modelled as a function. -/
def bump (m : String → Nat) (n : String) : String → Nat :=
  fun s => if s = n then m s + 1 else m s

/-- The counting loop of `structFields`: add one per field name occurrence
in a level. -/
def countLevel (nameOf : SField → String) (m : String → Nat)
    (level : List SField) : String → Nat :=
  level.foldl (fun acc f => bump acc (nameOf f)) m

/-- The emission loop of `structFields` over one level: skip fields tagged
`reflect:"-"`; keep a field whose accumulated count is exactly 1; emit one
`Duplicate` diagnostic per name whose within-level count exceeds 1
(`localIgnore` suppresses repeats). -/
def emitLevel (env : Env) (tId : Nat) (nameOf : SField → String) (i : Nat)
    (counts localCounts : String → Nat) :
    List SField → (String → Bool) → List SField × List String
  | [], _ => ([], [])
  | f :: rest, ignore =>
    if tagGet f.tags "reflect" = "-" then
      emitLevel env tId nameOf i counts localCounts rest ignore
    else
      let n := nameOf f
      let sel : List SField := if counts n = 1 then [f] else []
      if ignore n = false ∧ localCounts n > 1 then
        let p := emitLevel env tId nameOf i counts localCounts rest
          (fun s => if s = n then true else ignore s)
        (sel ++ p.1, dupMsg env tId i (localCounts n) n :: p.2)
      else
        let p := emitLevel env tId nameOf i counts localCounts rest ignore
        (sel ++ p.1, p.2)

/-- The per-level loop of `structFields`: count the level into the running
(cross-level) counts and a fresh local count map, then run the emission
loop. -/
def selectLevels (env : Env) (tId : Nat) (nameOf : SField → String) :
    List (List SField) → Nat → (String → Nat) → List SField × List String
  | [], _, _ => ([], [])
  | lv :: rest, i, counts =>
    let counts' := countLevel nameOf counts lv
    let localCounts := countLevel nameOf (fun _ => 0) lv
    let p := emitLevel env tId nameOf i counts' localCounts lv (fun _ => false)
    let q := selectLevels env tId nameOf rest (i + 1) counts'
    (p.1 ++ q.1, p.2 ++ q.2)

/-- `structFields`, parameterised by the field-name resolver: the version in
model_reflect.go (lines 129-163) uses the declared identifier `f.Name`; the
variant in the second source file (part_000, lines 171-207) is identical
except that every use of `f.Name` in the counting and emission loops is
`getName(f)`. -/
def structFieldsWith (nameOf : SField → String) (env : Env) (tId : Nat) :
    List SField × List String :=
  match lookupType env tId with
  | some ⟨_, TBody.strct fields _⟩ =>
    let p := expandStruct env fields
    let q := selectLevels env tId nameOf p.1 0 (fun _ => 0)
    (q.1, p.2 ++ q.2)
  | _ => ([], [])

/-- `structFields` of model_reflect.go: names are the declared identifiers. -/
def structFields (env : Env) (tId : Nat) : List SField × List String :=
  structFieldsWith (fun f => f.name) env tId

/-- `DefaultNameTags` (part_000 lines 56-60): the prioritized serialization
tag keys consulted for a field's display name. -/
def DefaultNameTags : List String := ["json", "msgpack", "cbor"]

/-- `strings.Split(s, ",")[0]`: the portion of a tag value before the first
comma (the whole value when no comma occurs). -/
def splitHead (s : String) : String :=
  String.mk (s.toList.takeWhile (fun c => c ≠ ','))

/-- `strings.ToUpper(name[0:1]) + name[1:]`: capitalize the first character
(only applied to non-empty names; ASCII case mapping as in the source's
use). -/
def capFirst (s : String) : String :=
  match s.toList with
  | [] => ""
  | c :: rest => String.mk (c.toUpper :: rest)

/-- The scanning loop of `getName` (part_000 lines 161-169) over a given
tag-key list: first tag whose value's head segment is non-empty wins. -/
def getNameFrom (keys : List String) (f : SField) : String :=
  match keys with
  | [] => f.name
  | tg :: rest =>
    let n := splitHead (tagGet f.tags tg)
    if n ≠ "" then capFirst n else getNameFrom rest f

/-- `getName` (part_000): resolve a field's display name from the default
naming tags, falling back to the declared identifier. -/
def getName (f : SField) : String :=
  getNameFrom DefaultNameTags f

/-- `structFields` of the part_000 variant: names resolved by `getName`. -/
def structFieldsT (env : Env) (tId : Nat) : List SField × List String :=
  structFieldsWith getName env tId

/-- The rendering key of a surviving field inside `typeToString`:
anonymous (embedded) fields get a `"."` prefix. -/
def fieldKey (f : SField) : String :=
  if f.anonymous then "." ++ f.name else f.name

/-- One iteration of the field-map loop of `typeToString` (model_reflect.go
lines 221-238): drop unexported fields and fields whose resolved base type
is not concrete; record a first-seen key; overwrite the map entry (later
fields overwrite earlier ones with the same key). -/
def buildFieldStep (env : Env) (acc : List String × (String → Option SField))
    (f : SField) : List String × (String → Option SField) :=
  if f.exported = false then acc
  else if isConcrete env (baseType env f.typeId) = false then acc
  else
    let n := fieldKey f
    let keys := if (acc.2 n).isSome then acc.1 else acc.1 ++ [n]
    (keys, fun s => if s = n then some f else acc.2 s)

/-- The field-map loop of `typeToString`. -/
def buildFieldMap (env : Env) (fs : List SField) :
    List String × (String → Option SField) :=
  fs.foldl (buildFieldStep env) ([], fun _ => none)

/-- Rendering of one field in `typeToString`'s final loop: anonymous fields
contribute no `name:` label; a non-empty `reflect` tag is emitted verbatim
instead of recursing. -/
def renderOne (rec : Option Nat → String × List String)
    (fmap : String → Option SField) (k : String) : String × List String :=
  match fmap k with
  | none => ("", [])
  | some f =>
    let pre := if f.anonymous = false then f.name ++ ":" else ""
    let tg := tagGet f.tags "reflect"
    if tg ≠ "" then (pre ++ tg, [])
    else
      let p := rec (some f.typeId)
      (pre ++ p.1, p.2)

/-- One step of `typeToString` (model_reflect.go lines 176-261), with the
recursive occurrences abstracted as `rec`.  `rec` receives the extended
ancestry path. -/
def ttsStep (env : Env) (rec : Option Nat → List Nat → String × List String)
    (t : Option Nat) (types : List Nat) : String × List String :=
  match t with
  | none => ("?", [])
  | some i0 =>
    let i := baseType env i0
    if isConcrete env i = false then ("?", [])
    else if i ∈ types then ("...", [loopMsg env i])
    else
      let types' := types ++ [i]
      match lookupType env i with
      | none => ("?", [])
      | some d =>
        match d.body with
        | TBody.slice e =>
          let p := rec (some e) types'
          ("[]" ++ p.1, p.2)
        | TBody.arr n e =>
          let p := rec (some e) types'
          ("[" ++ toString n ++ "]" ++ p.1, p.2)
        | TBody.tmap k e =>
          let pk := rec (some k) types'
          let pe := rec (some e) types'
          ("map[" ++ pk.1 ++ "]" ++ pe.1, pk.2 ++ pe.2)
        | TBody.strct _ caps =>
          let ifaces := sortStrings caps
          if ifaces ≠ [] then
            ("(" ++ String.intercalate "," ifaces ++ ")", [])
          else
            let fe := structFields env i
            let km := buildFieldMap env fe.1
            let keys := sortStrings km.1
            let rendered := keys.map
              (fun k => renderOne (fun s => rec s types') km.2 k)
            let e2 := if keys.length = 0 then [emptyMsg env i] else []
            ("\x7b " ++ String.intercalate ", " (rendered.map (fun p => p.1)) ++ " \x7d",
             fe.2 ++ e2 ++ (rendered.map (fun p => p.2)).flatten)
        | b => (kindString b, [])

/-- `typeToString` with a recursion budget (see the file comment: the
budget is inert once it exceeds the number of unvisited environment
entries, which claim C3 proves). -/
def typeToStringFuel : Nat → Env → Option Nat → List Nat → String × List String
  | 0, _, _, _ => ("", [])
  | fuel + 1, env, t, types =>
    ttsStep env (fun s ty => typeToStringFuel fuel env s ty) t types

/-- `typeToString` as called by `New`: empty initial ancestry, budget
`env.length + 1` (always sufficient). -/
def typeToString (env : Env) (t : Option Nat) : String × List String :=
  typeToStringFuel (env.length + 1) env t []

/-- `uniqueErrors` (model_reflect.go lines 77-87): deduplicate by message,
keeping first occurrences in order. -/
def uniqueErrors (l : List String) : List String :=
  l.foldl (fun acc e => if e ∈ acc then acc else acc ++ [e]) []

/-- `HashInfo`: the Argon2 cost configuration. -/
structure HashInfo where
  salt : List Nat
  time : Nat
  memory : Nat
  threads : Nat
deriving DecidableEq

/-- `DefaultHasher`: time=1, memory=8 KiB, threads=1, nil salt. -/
def DefaultHasher : HashInfo :=
  { salt := [], time := 1, memory := 8, threads := 1 }

/-- `ModelInfo`: the signature (an embedded unexported string in the
source), the deduplicated diagnostics, and the hash configuration. -/
structure ModelInfo where
  sig : String
  errs : List String
  hasher : HashInfo

/-- `New` (model_reflect.go lines 49-59): build the signature, deduplicate
the collected diagnostics, and return them joined as the error (modelled as
`some` of the deduplicated list) exactly when any remain. -/
def New (env : Env) (t : Option Nat) : ModelInfo × Option (List String) :=
  let p := typeToString env t
  let u := uniqueErrors p.2
  if u.length > 0 then
    ({ sig := p.1, errs := u, hasher := DefaultHasher }, some u)
  else
    ({ sig := p.1, errs := [], hasher := DefaultHasher }, none)

/-- The UTF-8 bytes of a string, as natural numbers. -/
def stringBytes (s : String) : List Nat :=
  s.toUTF8.toList.map (fun b => b.toNat)

/-- `binary.LittleEndian.Uint64`: interpret the first eight bytes as a
little-endian unsigned 64-bit integer. -/
def leUint64 (bs : List Nat) : Nat :=
  bs.getD 0 0 + bs.getD 1 0 * 256 ^ 1 + bs.getD 2 0 * 256 ^ 2 +
    bs.getD 3 0 * 256 ^ 3 + bs.getD 4 0 * 256 ^ 4 + bs.getD 5 0 * 256 ^ 5 +
    bs.getD 6 0 * 256 ^ 6 + bs.getD 7 0 * 256 ^ 7

/-- `ModelInfo.Hash` (model_reflect.go lines 61-71): derive eight bytes from
the signature's UTF-8 bytes with the configured salt and costs via the
memory-hard derivation function (`argon2.IDKey`, an external library,
passed here as the opaque parameter `idKey` with the argument order
password, salt, time, memory, threads, keyLen), then read them little
endian. -/
def ModelInfo.Hash (m : ModelInfo)
    (idKey : List Nat → List Nat → Nat → Nat → Nat → Nat → List Nat) : Nat :=
  leUint64 (idKey (stringBytes m.sig) m.hasher.salt m.hasher.time
    m.hasher.memory m.hasher.threads 8)

/-- A runtime value as `New` receives it: a dynamic type (none for a nil
interface) and contents.  `reflect.TypeOf` reads only the dynamic type. -/
structure GoValue where
  dynType : Option Nat
  payload : Nat

/-- `reflect.TypeOf`. -/
def reflectTypeOf (v : GoValue) : Option Nat := v.dynType

/-- `New` applied to a value: the source's `typeToString(reflect.TypeOf(v),
nil, &errs)` uses nothing of `v` but its dynamic type. -/
def NewValue (env : Env) (v : GoValue) : ModelInfo × Option (List String) :=
  New env (reflectTypeOf v)

/-! ### Proof-support definitions (measures and specifications used in the
theorems below; not part of the embedded program). -/

/-- The number of environment entries not yet on the ancestry path: the
walkers' termination measure. -/
def freshCount (env : Env) (types : List Nat) : Nat :=
  ((envKeys env).filter (fun i => decide (i ∉ types))).length

/-- The pointer nodes visited by `baseType`'s unwrap loop within a budget
(proof support for claim C3: on a minimally completing run these are
pairwise distinct members of the environment, which bounds the minimal
completing budget by the graph size). -/
def ptrChain (env : Env) : Nat → Nat → List Nat
  | 0, _ => []
  | fuel + 1, i =>
    match lookupType env i with
    | some (TDesc.mk _ (TBody.ptr e)) => i :: ptrChain env fuel e
    | _ => []

/-- The cross-level counts after processing a list of levels. -/
def countsAfter (nameOf : SField → String) (counts : String → Nat)
    (L : List (List SField)) : String → Nat :=
  L.foldl (countLevel nameOf) counts

/-- The selection performed by `selectLevels`, stripped of diagnostics: per
level, keep the fields not tagged `reflect:"-"` whose accumulated
(cross-level, including the whole current level) name count is exactly 1. -/
def selectSpec (nameOf : SField → String) (counts : String → Nat) :
    List (List SField) → List SField
  | [] => []
  | lv :: rest =>
    let c := countLevel nameOf counts lv
    lv.filter
      (fun f => !(tagGet f.tags "reflect" == "-") && (c (nameOf f) == 1)) ++
      selectSpec nameOf c rest

/-- Level-wise concatenation of two bucket lists (padding with the longer). -/
def mergeLevels : List (List SField) → List (List SField) → List (List SField)
  | A, [] => A
  | [], B => B
  | a :: A, b :: B => (a ++ b) :: mergeLevels A B

/-- Two bucket lists of the same length whose levels are pairwise
permutations of one another. -/
def LevelPerm (A B : List (List SField)) : Prop :=
  List.Forall₂ (fun a b => a.Perm b) A B

/-- A string that does not begin with `'.'` (true of every Go identifier;
field names are identifiers, so the renderer's `"."`-prefixed keys for
embedded fields cannot collide with plain keys). -/
def dotFree (s : String) : Prop := s.toList.head? ≠ some '.'

/-- The declared fields of a struct body (empty for other kinds). -/
def structFieldsOf : TBody → List SField
  | TBody.strct fs _ => fs
  | _ => []

/-- Whether `expandField` expands this field in place (embedded field whose
base type is a struct) rather than recording it at the current depth. -/
def expandsInline (env : Env) (f : SField) : Bool :=
  match lookupType env (baseType env f.typeId) with
  | some ⟨_, TBody.strct _ _⟩ => f.anonymous
  | _ => false

/-- Every field name declared by any struct node of the environment is
`dotFree` (automatic for descriptor graphs coming from the host runtime,
since Go identifiers never start with a dot). -/
def envNamesOK (env : Env) : Prop :=
  ∀ p ∈ env, ∀ f ∈ structFieldsOf p.2.body, dotFree f.name

/-! ### Concrete type graphs used by the witnesses -/

/-- A single `int` node. -/
def envPrim : Env := [(0, ⟨"int", TBody.prim "int"⟩)]

/-- `type A struct{X int}` embedded into `type B struct{A; X int}`. -/
def envShadow : Env :=
  [(0, ⟨"B", TBody.strct
      [⟨"A", 1, true, true, []⟩, ⟨"X", 2, true, false, []⟩] []⟩),
   (1, ⟨"A", TBody.strct [⟨"X", 2, true, false, []⟩] []⟩),
   (2, ⟨"int", TBody.prim "int"⟩)]

/-- `type S struct{E1; E2}` with `E1` and `E2` both declaring `X int`:
a same-depth collision at embed level 1. -/
def envDup : Env :=
  [(0, ⟨"S", TBody.strct
      [⟨"E1", 1, true, true, []⟩, ⟨"E2", 2, true, true, []⟩] []⟩),
   (1, ⟨"E1", TBody.strct [⟨"X", 3, true, false, []⟩] []⟩),
   (2, ⟨"E2", TBody.strct [⟨"X", 3, true, false, []⟩] []⟩),
   (3, ⟨"int", TBody.prim "int"⟩)]

/-- Like `envDup` but `E1`'s colliding field carries the ignore tag
`reflect:"-"`. -/
def envDupTag : Env :=
  [(0, ⟨"S", TBody.strct
      [⟨"E1", 1, true, true, []⟩, ⟨"E2", 2, true, true, []⟩] []⟩),
   (1, ⟨"E1", TBody.strct [⟨"A", 3, true, false, [("reflect", "-")]⟩] []⟩),
   (2, ⟨"E2", TBody.strct [⟨"A", 3, true, false, []⟩] []⟩),
   (3, ⟨"int", TBody.prim "int"⟩)]

/-- A self-referential struct: `type A struct{B *A; N int}`. -/
def envLoop : Env :=
  [(0, ⟨"A", TBody.strct
      [⟨"B", 1, true, false, []⟩, ⟨"N", 2, true, false, []⟩] []⟩),
   (1, ⟨"ptrA", TBody.ptr 0⟩),
   (2, ⟨"int", TBody.prim "int"⟩)]

/-- The pointer-cyclic one-node graph of `type P *P` (legal Go: a named
pointer type whose element type is itself). -/
def envPtrLoop : Env := [(0, ⟨"P", TBody.ptr 0⟩)]

/-- A struct whose pointer type satisfies two capability interfaces. -/
def envCaps : Env :=
  [(0, ⟨"C", TBody.strct [⟨"X", 1, true, false, []⟩]
      ["encoding.TextMarshaler", "encoding.BinaryMarshaler"]⟩),
   (1, ⟨"int", TBody.prim "int"⟩)]

/-- A three-field struct (the spec's end-to-end example). -/
def envOrder1 : Env :=
  [(0, ⟨"T", TBody.strct
      [⟨"Lolipop", 1, true, false, []⟩, ⟨"Stuff", 2, true, false, []⟩,
       ⟨"Data", 2, true, false, []⟩] []⟩),
   (1, ⟨"float32", TBody.prim "float32"⟩),
   (2, ⟨"int", TBody.prim "int"⟩)]

/-- `envOrder1` with the declaration order of `T`'s fields permuted. -/
def envOrder2 : Env :=
  [(0, ⟨"T", TBody.strct
      [⟨"Data", 2, true, false, []⟩, ⟨"Lolipop", 1, true, false, []⟩,
       ⟨"Stuff", 2, true, false, []⟩] []⟩),
   (1, ⟨"float32", TBody.prim "float32"⟩),
   (2, ⟨"int", TBody.prim "int"⟩)]

end ModelReflect

namespace ModelReflect

/-! ### Basic lemmas -/

theorem lookup_mem_envKeys {env : Env} {i : Nat} {d : TDesc}
    (h : lookupType env i = some d) : i ∈ envKeys env := by
  unfold lookupType at h
  cases hf : env.find? (fun p => p.1 = i) with
  | none => rw [hf] at h; cases h
  | some p =>
    have hp : p.1 = i := by simpa using List.find?_some hf
    have hm : p ∈ env := List.mem_of_find?_eq_some hf
    subst hp
    exact List.mem_map.mpr ⟨p, hm, rfl⟩

theorem baseType_eq_self {env : Env} {b : Nat} {d : TDesc}
    (h : lookupType env b = some d) (hp : ∀ e, d.body ≠ TBody.ptr e) :
    baseType env b = b := by
  show baseTypeFuel env (env.length + 1) b = b
  unfold baseTypeFuel
  rw [h]
  obtain ⟨nm, body⟩ := d
  cases body with
  | ptr e => exact absurd rfl (hp e)
  | prim k => rfl
  | slice e => rfl
  | arr n e => rfl
  | tmap k e => rfl
  | strct fs caps => rfl
  | interf => rfl
  | func => rfl
  | chan => rfl
  | unsafePointer => rfl

theorem sortStrings_perm (l : List String) : (sortStrings l).Perm l :=
  List.perm_insertionSort _ l

theorem sortStrings_eq_nil_iff {l : List String} : sortStrings l = [] ↔ l = [] := by
  constructor
  · intro h
    have hp := sortStrings_perm l
    rw [h] at hp
    exact hp.symm.eq_nil
  · intro h; subst h; rfl

theorem mem_dedupFoldAux (l : List String) :
    ∀ (acc : List String) (x : String),
      (x ∈ l.foldl (fun acc e => if e ∈ acc then acc else acc ++ [e]) acc) ↔
        (x ∈ acc ∨ x ∈ l) := by
  induction l with
  | nil => intro acc x; simp
  | cons e l ih =>
    intro acc x
    simp only [List.foldl_cons]
    rw [ih]
    by_cases he : e ∈ acc
    · simp only [if_pos he, List.mem_cons]
      constructor
      · rintro (h | h)
        · exact Or.inl h
        · exact Or.inr (Or.inr h)
      · rintro (h | h | h)
        · exact Or.inl h
        · exact Or.inl (h ▸ he)
        · exact Or.inr h
    · simp only [if_neg he, List.mem_cons, List.mem_append, List.mem_singleton]
      tauto

theorem nodup_dedupFoldAux (l : List String) :
    ∀ (acc : List String), acc.Nodup →
      (l.foldl (fun acc e => if e ∈ acc then acc else acc ++ [e]) acc).Nodup := by
  induction l with
  | nil => intro acc h; simpa using h
  | cons e l ih =>
    intro acc h
    simp only [List.foldl_cons]
    apply ih
    by_cases he : e ∈ acc
    · simpa [he] using h
    · simp only [if_neg he]
      rw [List.nodup_append]
      refine ⟨h, List.nodup_singleton e, ?_⟩
      intro x hx hxe
      rw [List.mem_singleton] at hxe
      subst hxe
      exact he hx

theorem mem_uniqueErrors {l : List String} {x : String} :
    x ∈ uniqueErrors l ↔ x ∈ l := by
  unfold uniqueErrors
  rw [mem_dedupFoldAux]
  simp

theorem uniqueErrors_nodup (l : List String) : (uniqueErrors l).Nodup :=
  nodup_dedupFoldAux l [] List.nodup_nil

theorem uniqueErrors_eq_nil_iff {l : List String} : uniqueErrors l = [] ↔ l = [] := by
  constructor
  · intro h
    cases l with
    | nil => rfl
    | cons e l =>
      exact absurd (mem_uniqueErrors.mpr (List.mem_cons_self e l))
        (by rw [h]; exact List.not_mem_nil e)
  · intro h; subst h; rfl

/-! ### Claim C4 -/

/-- C4: `Hash()` equals the little-endian unsigned 64-bit interpretation of
the 8-byte output of the memory-hard derivation function (`argon2.IDKey`,
modelled by the opaque parameter `idKey`) applied to the UTF-8 bytes of the
signature as password together with the config's salt, time cost, memory
cost and parallelism; and identical signature plus identical config always
yields the identical integer. -/
theorem C4_hash_is_little_endian_argon2
    (idKey : List Nat → List Nat → Nat → Nat → Nat → Nat → List Nat)
    (m m' : ModelInfo) :
    ModelInfo.Hash m idKey =
      leUint64 (idKey (stringBytes m.sig) m.hasher.salt m.hasher.time
        m.hasher.memory m.hasher.threads 8) ∧
    (m.sig = m'.sig → m.hasher = m'.hasher →
      ModelInfo.Hash m idKey = ModelInfo.Hash m' idKey) := by
  refine ⟨rfl, fun h1 h2 => ?_⟩
  unfold ModelInfo.Hash
  rw [h1, h2]

/-- Witness for C4 at a concrete derivation function and two concrete
`ModelInfo`s sharing signature and config. -/
theorem C4_witness :
    ModelInfo.Hash ⟨"{  }", [], DefaultHasher⟩ (fun _ _ _ _ _ _ => List.replicate 8 1) =
      ModelInfo.Hash ⟨"{  }", ["empty struct T"], DefaultHasher⟩
        (fun _ _ _ _ _ _ => List.replicate 8 1) :=
  (C4_hash_is_little_endian_argon2 (fun _ _ _ _ _ _ => List.replicate 8 1)
    ⟨"{  }", [], DefaultHasher⟩ ⟨"{  }", ["empty struct T"], DefaultHasher⟩).2 rfl rfl

/-! ### Claim C10 -/

/-- C10: two input values with the same dynamic type give identical
signatures, identical diagnostics (the whole `New` output coincides) and
identical hashes under any derivation function: the output depends only on
the type descriptor, never on the value's contents. -/
theorem C10_depends_only_on_dynamic_type
    (env : Env) (v w : GoValue)
    (idKey : List Nat → List Nat → Nat → Nat → Nat → Nat → List Nat)
    (h : reflectTypeOf v = reflectTypeOf w) :
    NewValue env v = NewValue env w ∧
    ModelInfo.Hash (NewValue env v).1 idKey =
      ModelInfo.Hash (NewValue env w).1 idKey := by
  unfold NewValue
  rw [h]
  exact ⟨rfl, rfl⟩

/-- Witness for C10: two values of the same dynamic type with different
payloads. -/
theorem C10_witness :
    NewValue envPrim ⟨some 0, 5⟩ = NewValue envPrim ⟨some 0, 99⟩ ∧
    ModelInfo.Hash (NewValue envPrim ⟨some 0, 5⟩).1 (fun _ _ _ _ _ _ => []) =
      ModelInfo.Hash (NewValue envPrim ⟨some 0, 99⟩).1 (fun _ _ _ _ _ _ => []) :=
  C10_depends_only_on_dynamic_type envPrim ⟨some 0, 5⟩ ⟨some 0, 99⟩
    (fun _ _ _ _ _ _ => []) rfl

/-! ### Claim C9 -/

/-- C9: a field's display name is resolved by scanning the prioritized
naming tag keys in order (first match wins), taking the portion of the tag
value before the first comma; a non-empty portion is used with its first
character upper-cased, otherwise the declared identifier is used. -/
theorem C9_display_name_resolution (f : SField) :
    ((∀ tg ∈ DefaultNameTags, splitHead (tagGet f.tags tg) = "") →
      getName f = f.name) ∧
    (∀ i, i < DefaultNameTags.length →
      splitHead (tagGet f.tags (DefaultNameTags.getD i "")) ≠ "" →
      (∀ j, j < i → splitHead (tagGet f.tags (DefaultNameTags.getD j "")) = "") →
      getName f =
        capFirst (splitHead (tagGet f.tags (DefaultNameTags.getD i "")))) := by
  constructor
  · intro h
    have h0 := h "json" (by simp [DefaultNameTags])
    have h1 := h "msgpack" (by simp [DefaultNameTags])
    have h2 := h "cbor" (by simp [DefaultNameTags])
    simp [getName, getNameFrom, DefaultNameTags, h0, h1, h2]
  · intro i hi hne hbelow
    have hi3 : i < 3 := by simpa [DefaultNameTags] using hi
    interval_cases i
    · have hne' : splitHead (tagGet f.tags "json") ≠ "" := by
        simpa [DefaultNameTags, List.getD] using hne
      simp [getName, getNameFrom, DefaultNameTags, List.getD, hne']
    · have h0 : splitHead (tagGet f.tags "json") = "" := by
        simpa [DefaultNameTags, List.getD] using hbelow 0 (by omega)
      have hne' : splitHead (tagGet f.tags "msgpack") ≠ "" := by
        simpa [DefaultNameTags, List.getD] using hne
      simp [getName, getNameFrom, DefaultNameTags, List.getD, h0, hne']
    · have h0 : splitHead (tagGet f.tags "json") = "" := by
        simpa [DefaultNameTags, List.getD] using hbelow 0 (by omega)
      have h1 : splitHead (tagGet f.tags "msgpack") = "" := by
        simpa [DefaultNameTags, List.getD] using hbelow 1 (by omega)
      have hne' : splitHead (tagGet f.tags "cbor") ≠ "" := by
        simpa [DefaultNameTags, List.getD] using hne
      simp [getName, getNameFrom, DefaultNameTags, List.getD, h0, h1, hne']

/-- Witness for C9: a field whose `msgpack` tag carries `"foo,extra"` while
`json` is absent resolves to `capFirst "foo" = "Foo"`. -/
theorem C9_witness :
    splitHead (tagGet [("msgpack", "foo,extra")] (DefaultNameTags.getD 1 "")) ≠ "" ∧
    getName ⟨"T", 0, true, false, [("msgpack", "foo,extra")]⟩ = "Foo" := by
  refine ⟨by decide, ?_⟩
  have h := (C9_display_name_resolution
    ⟨"T", 0, true, false, [("msgpack", "foo,extra")]⟩).2 1 (by decide)
    (by decide) (by intro j hj; interval_cases j; decide)
  rw [h]
  decide

end ModelReflect

namespace ModelReflect

/-! ### Claim C5 -/

/-- C5: `New` returns a non-nil error exactly when the collected
diagnostics are non-empty; the error joins the diagnostics deduplicated by
message (each distinct message once); and the signature is returned intact
in either case. -/
theorem C5_error_iff_diagnostics (env : Env) (t : Option Nat) :
    ((New env t).2 = if (typeToString env t).2 = [] then none
      else some (uniqueErrors (typeToString env t).2)) ∧
    (New env t).1.sig = (typeToString env t).1 ∧
    (uniqueErrors (typeToString env t).2).Nodup ∧
    (∀ e, e ∈ uniqueErrors (typeToString env t).2 ↔ e ∈ (typeToString env t).2) := by
  refine ⟨?_, ?_, uniqueErrors_nodup _, fun e => mem_uniqueErrors⟩
  · simp only [New]
    by_cases h : (typeToString env t).2 = []
    · have hu : uniqueErrors (typeToString env t).2 = [] :=
        uniqueErrors_eq_nil_iff.mpr h
      simp [h, hu, uniqueErrors]
    · have hu : uniqueErrors (typeToString env t).2 ≠ [] :=
        fun hh => h (uniqueErrors_eq_nil_iff.mp hh)
      have hl : (uniqueErrors (typeToString env t).2).length > 0 :=
        List.length_pos.mpr hu
      simp [h, hl]
  · simp only [New]
    split <;> rfl

/-- Witness for C5 on the self-referential graph `envLoop`, whose walk
produces a `LoopDetected` diagnostic. -/
theorem C5_witness :
    (New envLoop (some 0)).2 = some (uniqueErrors (typeToString envLoop (some 0)).2) ∧
    (New envLoop (some 0)).1.sig = (typeToString envLoop (some 0)).1 := by
  constructor
  · have h := (C5_error_iff_diagnostics envLoop (some 0)).1
    rw [h, if_neg (by decide)]
  · exact (C5_error_iff_diagnostics envLoop (some 0)).2.1

/-! ### Claim C6 -/

/-- C6: a struct whose pointer type satisfies at least one configured
capability interface renders as `"(" ++ <sorted names joined by ","> ++ ")"`
with no diagnostics; its fields are never expanded, so the rendering is
independent of the field list. -/
theorem C6_capability_opaque_leaf (env : Env) (b : Nat) (types : List Nat)
    (fuel : Nat) (nm : String) (flds : List SField) (caps : List String)
    (hlk : lookupType env b = some ⟨nm, TBody.strct flds caps⟩)
    (hcaps : caps ≠ []) (hmem : b ∉ types) :
    typeToStringFuel (fuel + 1) env (some b) types =
      ("(" ++ String.intercalate "," (sortStrings caps) ++ ")", []) ∧
    (∀ (env2 : Env) (flds2 : List SField) (fuel2 : Nat),
      lookupType env2 b = some ⟨nm, TBody.strct flds2 caps⟩ →
      typeToStringFuel (fuel2 + 1) env2 (some b) types =
        typeToStringFuel (fuel + 1) env (some b) types) := by
  have hs : sortStrings caps ≠ [] := fun h => hcaps (sortStrings_eq_nil_iff.mp h)
  have hmain : ∀ (env' : Env) (flds' : List SField) (fuel' : Nat),
      lookupType env' b = some ⟨nm, TBody.strct flds' caps⟩ →
      typeToStringFuel (fuel' + 1) env' (some b) types =
        ("(" ++ String.intercalate "," (sortStrings caps) ++ ")", []) := by
    intro env' flds' fuel' hlk'
    have hb : baseType env' b = b :=
      baseType_eq_self hlk' (by intro e he; cases he)
    have hc : isConcrete env' b = true := by
      simp [isConcrete, hlk', isConcreteBody]
    show ttsStep env' (fun s ty => typeToStringFuel fuel' env' s ty) (some b) types = _
    simp [ttsStep, hb, hc, hmem, hlk', hs]
  refine ⟨hmain env flds fuel hlk, fun env2 flds2 fuel2 h2 => ?_⟩
  rw [hmain env2 flds2 fuel2 h2, hmain env flds fuel hlk]

/-- Witness for C6: `envCaps`'s struct renders as the sorted capability
list; replacing its fields by an empty list leaves the rendering
unchanged. -/
theorem C6_witness :
    typeToStringFuel 2 envCaps (some 0) [] =
      ("(" ++ String.intercalate ","
        (sortStrings ["encoding.TextMarshaler", "encoding.BinaryMarshaler"]) ++ ")", []) ∧
    typeToStringFuel 1
        [(0, ⟨"C", TBody.strct []
          ["encoding.TextMarshaler", "encoding.BinaryMarshaler"]⟩)]
        (some 0) [] =
      typeToStringFuel 2 envCaps (some 0) [] := by
  have h := C6_capability_opaque_leaf envCaps 0 [] 1 "C"
    [⟨"X", 1, true, false, []⟩]
    ["encoding.TextMarshaler", "encoding.BinaryMarshaler"]
    (by decide) (by decide) (by decide)
  exact ⟨h.1, h.2 [(0, ⟨"C", TBody.strct []
    ["encoding.TextMarshaler", "encoding.BinaryMarshaler"]⟩)] [] 0 (by decide)⟩

/-! ### Claim C3: termination and the cycle guard -/

theorem filter_length_le {α : Type} (l : List α) (p q : α → Bool)
    (hmono : ∀ x, q x = true → p x = true) :
    (l.filter q).length ≤ (l.filter p).length := by
  induction l with
  | nil => simp
  | cons a l ih =>
    cases hq : q a with
    | true =>
      have hp := hmono a hq
      simp [hq, hp, List.filter_cons]
      omega
    | false =>
      cases hp : p a with
      | true =>
        simp [hq, hp, List.filter_cons]
        omega
      | false =>
        simpa [hq, hp, List.filter_cons] using ih

theorem filter_length_lt {α : Type} (l : List α) (p q : α → Bool) (i : α)
    (hmono : ∀ x, q x = true → p x = true) (hi : i ∈ l)
    (hqi : q i = false) (hpi : p i = true) :
    (l.filter q).length < (l.filter p).length := by
  induction l with
  | nil => cases hi
  | cons a l ih =>
    rcases List.mem_cons.mp hi with rfl | hmem
    · have hle := filter_length_le l p q hmono
      simp [hqi, hpi, List.filter_cons]
      omega
    · cases hq : q a with
      | true =>
        have hp := hmono a hq
        have := ih hmem
        simp [hq, hp, List.filter_cons]
        omega
      | false =>
        cases hp : p a with
        | true =>
          have := ih hmem
          simp [hq, hp, List.filter_cons]
          omega
        | false =>
          simpa [hq, hp, List.filter_cons] using ih hmem

theorem freshCount_append_lt {env : Env} {types : List Nat} {i : Nat}
    (hkey : i ∈ envKeys env) (hni : i ∉ types) :
    freshCount env (types ++ [i]) < freshCount env types := by
  apply filter_length_lt (envKeys env) _ _ i
  · intro x hx
    simp only [decide_eq_true_eq] at hx ⊢
    intro hmem
    exact hx (List.mem_append.mpr (Or.inl hmem))
  · exact hkey
  · simp
  · simpa using hni

theorem ttsStep_congr (env : Env)
    (r1 r2 : Option Nat → List Nat → String × List String)
    (t : Option Nat) (types : List Nat)
    (h : ∀ s i, i ∈ envKeys env → i ∉ types →
      r1 s (types ++ [i]) = r2 s (types ++ [i])) :
    ttsStep env r1 t types = ttsStep env r2 t types := by
  cases t with
  | none => rfl
  | some i0 =>
    by_cases hc : isConcrete env (baseType env i0) = false
    · simp [ttsStep, hc]
    · by_cases hm : baseType env i0 ∈ types
      · simp [ttsStep, hc, hm]
      · cases hl : lookupType env (baseType env i0) with
        | none => simp [ttsStep, hc, hm, hl]
        | some d =>
          have hkey : baseType env i0 ∈ envKeys env := lookup_mem_envKeys hl
          have hr : ∀ s, r1 s (types ++ [baseType env i0]) =
              r2 s (types ++ [baseType env i0]) := fun s => h s _ hkey hm
          cases hb : d.body with
          | prim k => simp [ttsStep, hc, hm, hl, hb]
          | ptr e => simp [ttsStep, hc, hm, hl, hb]
          | slice e => simp [ttsStep, hc, hm, hl, hb, hr]
          | arr n e => simp [ttsStep, hc, hm, hl, hb, hr]
          | tmap k e => simp [ttsStep, hc, hm, hl, hb, hr]
          | strct fs caps => simp [ttsStep, hc, hm, hl, hb, hr]
          | interf => simp [ttsStep, hc, hm, hl, hb]
          | func => simp [ttsStep, hc, hm, hl, hb]
          | chan => simp [ttsStep, hc, hm, hl, hb]
          | unsafePointer => simp [ttsStep, hc, hm, hl, hb]

theorem tts_fuel_stable (env : Env) :
    ∀ (f1 f2 : Nat) (s : Option Nat) (types : List Nat),
      freshCount env types < f1 → freshCount env types < f2 →
      typeToStringFuel f1 env s types = typeToStringFuel f2 env s types := by
  intro f1
  induction f1 with
  | zero => intro f2 s types h1 _; exact absurd h1 (Nat.not_lt_zero _)
  | succ a ih =>
    intro f2 s types h1 h2
    cases f2 with
    | zero => exact absurd h2 (Nat.not_lt_zero _)
    | succ b =>
      show ttsStep env (fun s ty => typeToStringFuel a env s ty) s types =
        ttsStep env (fun s ty => typeToStringFuel b env s ty) s types
      apply ttsStep_congr
      intro s' i hkey hni
      exact ih b s' (types ++ [i])
        (lt_of_lt_of_le (freshCount_append_lt hkey hni) (Nat.lt_succ_iff.mp h1))
        (lt_of_lt_of_le (freshCount_append_lt hkey hni) (Nat.lt_succ_iff.mp h2))


end ModelReflect

namespace ModelReflect

/-! ### The selection phase of `structFields`: characterizations -/

theorem countLevel_cons (nameOf : SField → String) (m : String → Nat)
    (f : SField) (rest : List SField) :
    countLevel nameOf m (f :: rest) = countLevel nameOf (bump m (nameOf f)) rest := rfl

theorem countLevel_apply (nameOf : SField → String) :
    ∀ (lv : List SField) (m : String → Nat) (n : String),
      countLevel nameOf m lv n = m n + lv.countP (fun f => nameOf f == n) := by
  intro lv
  induction lv with
  | nil => intro m n; simp [countLevel]
  | cons f rest ih =>
    intro m n
    rw [countLevel_cons, ih]
    by_cases h : nameOf f = n
    · simp [bump, h, List.countP_cons]
      omega
    · simp [bump, h, List.countP_cons]
      intro hh
      exact absurd hh.symm h

theorem emitLevel_fst (env : Env) (tId : Nat) (nameOf : SField → String) (i : Nat)
    (counts localCounts : String → Nat) :
    ∀ (level : List SField) (ignore : String → Bool),
      (emitLevel env tId nameOf i counts localCounts level ignore).1 =
        level.filter
          (fun f => !(tagGet f.tags "reflect" == "-") && (counts (nameOf f) == 1)) := by
  intro level
  induction level with
  | nil => intro ignore; rfl
  | cons f rest ih =>
    intro ignore
    by_cases ht : tagGet f.tags "reflect" = "-"
    · simp [emitLevel, ht, ih, List.filter_cons]
    · by_cases hd : ignore (nameOf f) = false ∧ localCounts (nameOf f) > 1
      · by_cases hc : counts (nameOf f) = 1 <;>
          simp [emitLevel, ht, hd, ih, List.filter_cons, hc]
      · by_cases hc : counts (nameOf f) = 1 <;>
          simp [emitLevel, ht, hd, ih, List.filter_cons, hc]

theorem emitLevel_snd_nil (env : Env) (tId : Nat) (nameOf : SField → String) (i : Nat)
    (counts localCounts : String → Nat) :
    ∀ (level : List SField) (ignore : String → Bool),
      (∀ f ∈ level, localCounts (nameOf f) ≤ 1) →
      (emitLevel env tId nameOf i counts localCounts level ignore).2 = [] := by
  intro level
  induction level with
  | nil => intro ignore _; rfl
  | cons f rest ih =>
    intro ignore h
    have hf := h f (List.mem_cons_self f rest)
    have hrest : ∀ g ∈ rest, localCounts (nameOf g) ≤ 1 :=
      fun g hg => h g (List.mem_cons_of_mem f hg)
    by_cases ht : tagGet f.tags "reflect" = "-"
    · simpa [emitLevel, ht] using ih ignore hrest
    · have hd : ¬ (ignore (nameOf f) = false ∧ localCounts (nameOf f) > 1) := by
        rintro ⟨_, hgt⟩; omega
      simpa [emitLevel, ht, hd] using ih ignore hrest

theorem emitLevel_snd_dup (env : Env) (tId : Nat) (nameOf : SField → String) (i : Nat)
    (counts localCounts : String → Nat) (X : String) :
    ∀ (level : List SField) (ignore : String → Bool),
      (∀ f ∈ level, nameOf f ≠ X → localCounts (nameOf f) ≤ 1) →
      localCounts X > 1 →
      (emitLevel env tId nameOf i counts localCounts level ignore).2 =
        (if ignore X = false ∧
            level.any (fun f => (nameOf f == X) && !(tagGet f.tags "reflect" == "-"))
         then [dupMsg env tId i (localCounts X) X] else []) := by
  intro level
  induction level with
  | nil => intro ignore _ _; simp [emitLevel]
  | cons f rest ih =>
    intro ignore h hX
    have hrest : ∀ g ∈ rest, nameOf g ≠ X → localCounts (nameOf g) ≤ 1 :=
      fun g hg => h g (List.mem_cons_of_mem f hg)
    by_cases ht : tagGet f.tags "reflect" = "-"
    · rw [show (emitLevel env tId nameOf i counts localCounts (f :: rest) ignore) =
          (emitLevel env tId nameOf i counts localCounts rest ignore) by
            simp [emitLevel, ht]]
      rw [ih ignore hrest hX]
      simp [List.any_cons, ht]
    · by_cases hn : nameOf f = X
      · by_cases hig : ignore X = false
        · have hd : ignore (nameOf f) = false ∧ localCounts (nameOf f) > 1 := by
            rw [hn]; exact ⟨hig, hX⟩
          have hstep : (emitLevel env tId nameOf i counts localCounts (f :: rest) ignore).2 =
              dupMsg env tId i (localCounts (nameOf f)) (nameOf f) ::
                (emitLevel env tId nameOf i counts localCounts rest
                  (fun s => if s = nameOf f then true else ignore s)).2 := by
            simp [emitLevel, ht, hd]
          rw [hstep, ih _ hrest hX]
          have hig' : (fun s => if s = nameOf f then true else ignore s) X = true := by
            simp [hn]
          rw [hn]
          simp [hig', hig, List.any_cons, hn, ht]
        · have higt : ignore X = true := by
            cases hh : ignore X with
            | true => rfl
            | false => exact absurd hh hig
          have hd : ¬ (ignore (nameOf f) = false ∧ localCounts (nameOf f) > 1) := by
            rw [hn]; rintro ⟨hf, _⟩; rw [higt] at hf; cases hf
          have hstep : (emitLevel env tId nameOf i counts localCounts (f :: rest) ignore).2 =
              (emitLevel env tId nameOf i counts localCounts rest ignore).2 := by
            simp [emitLevel, ht, hd]
          rw [hstep, ih ignore hrest hX]
          simp [hig]
      · have hf := h f (List.mem_cons_self f rest) hn
        have hd : ¬ (ignore (nameOf f) = false ∧ localCounts (nameOf f) > 1) := by
          rintro ⟨_, hgt⟩; omega
        have hstep : (emitLevel env tId nameOf i counts localCounts (f :: rest) ignore).2 =
            (emitLevel env tId nameOf i counts localCounts rest ignore).2 := by
          simp [emitLevel, ht, hd]
        rw [hstep, ih ignore hrest hX]
        simp [List.any_cons, hn]

theorem selectLevels_fst (env : Env) (tId : Nat) (nameOf : SField → String) :
    ∀ (L : List (List SField)) (i : Nat) (counts : String → Nat),
      (selectLevels env tId nameOf L i counts).1 = selectSpec nameOf counts L := by
  intro L
  induction L with
  | nil => intro i counts; rfl
  | cons lv rest ih =>
    intro i counts
    simp [selectLevels, selectSpec, emitLevel_fst, ih]

theorem selectLevels_snd_nil (env : Env) (tId : Nat) (nameOf : SField → String) :
    ∀ (L : List (List SField)) (i : Nat) (counts : String → Nat),
      (∀ lv ∈ L, ∀ n, lv.countP (fun f => nameOf f == n) ≤ 1) →
      (selectLevels env tId nameOf L i counts).2 = [] := by
  intro L
  induction L with
  | nil => intro i counts _; rfl
  | cons lv rest ih =>
    intro i counts h
    have hlv : ∀ f ∈ lv, countLevel nameOf (fun _ => 0) lv (nameOf f) ≤ 1 := by
      intro f hf
      rw [countLevel_apply]
      simpa using h lv (List.mem_cons_self lv rest) (nameOf f)
    have he := emitLevel_snd_nil env tId nameOf i
      (countLevel nameOf counts lv) (countLevel nameOf (fun _ => 0) lv) lv
      (fun _ => false) hlv
    have hr := ih (i + 1) (countLevel nameOf counts lv)
      (fun l hl n => h l (List.mem_cons_of_mem lv hl) n)
    simp [selectLevels, he, hr]

end ModelReflect

namespace ModelReflect

theorem countsAfter_cons (nameOf : SField → String) (counts : String → Nat)
    (lv : List SField) (L : List (List SField)) :
    countsAfter nameOf counts (lv :: L) =
      countsAfter nameOf (countLevel nameOf counts lv) L := rfl

theorem selectSpec_cons (nameOf : SField → String) (counts : String → Nat)
    (lv : List SField) (rest : List (List SField)) :
    selectSpec nameOf counts (lv :: rest) =
      lv.filter (fun f =>
        !(tagGet f.tags "reflect" == "-") &&
          (countLevel nameOf counts lv (nameOf f) == 1)) ++
        selectSpec nameOf (countLevel nameOf counts lv) rest := rfl

theorem selectSpec_append (nameOf : SField → String) :
    ∀ (L1 L2 : List (List SField)) (counts : String → Nat),
      selectSpec nameOf counts (L1 ++ L2) =
        selectSpec nameOf counts L1 ++
          selectSpec nameOf (countsAfter nameOf counts L1) L2 := by
  intro L1
  induction L1 with
  | nil => intro L2 counts; rfl
  | cons lv rest ih =>
    intro L2 counts
    simp only [List.cons_append, selectSpec_cons, countsAfter_cons, ih,
      List.append_assoc]

theorem selectLevels_snd_append (env : Env) (tId : Nat) (nameOf : SField → String) :
    ∀ (L1 L2 : List (List SField)) (i : Nat) (counts : String → Nat),
      (selectLevels env tId nameOf (L1 ++ L2) i counts).2 =
        (selectLevels env tId nameOf L1 i counts).2 ++
          (selectLevels env tId nameOf L2 (i + L1.length)
            (countsAfter nameOf counts L1)).2 := by
  intro L1
  induction L1 with
  | nil => intro L2 i counts; simp [selectLevels, countsAfter]
  | cons lv rest ih =>
    intro L2 i counts
    have harith : i + 1 + rest.length = i + (rest.length + 1) := by omega
    simp only [List.cons_append, selectLevels, List.append_eq]
    rw [ih L2 (i + 1) (countLevel nameOf counts lv)]
    simp only [countsAfter_cons, List.append_assoc, List.length_cons, harith]

theorem selectSpec_filter_of_countP_zero (nameOf : SField → String) (X : String) :
    ∀ (L : List (List SField)) (counts : String → Nat),
      (∀ lv ∈ L, lv.countP (fun g => nameOf g == X) = 0) →
      (selectSpec nameOf counts L).filter (fun g => nameOf g == X) = [] ∧
      countsAfter nameOf counts L X = counts X := by
  intro L
  induction L with
  | nil => intro counts _; exact ⟨rfl, rfl⟩
  | cons lv rest ih =>
    intro counts h
    have hlv : lv.countP (fun g => nameOf g == X) = 0 :=
      h lv (List.mem_cons_self lv rest)
    have hnoX : ∀ g ∈ lv, ¬ (nameOf g == X) = true :=
      List.countP_eq_zero.mp hlv
    have hcl : countLevel nameOf counts lv X = counts X := by
      rw [countLevel_apply, hlv]
      omega
    obtain ⟨ih1, ih2⟩ := ih (countLevel nameOf counts lv)
      (fun l hl => h l (List.mem_cons_of_mem lv hl))
    constructor
    · rw [selectSpec_cons, List.filter_append, ih1, List.append_nil,
        List.filter_filter]
      apply List.filter_eq_nil_iff.mpr
      intro g hg hcontra
      rw [Bool.and_eq_true] at hcontra
      exact hnoX g hg hcontra.1
    · rw [countsAfter_cons, ih2, hcl]

theorem selectSpec_filter_of_pos (nameOf : SField → String) (X : String) :
    ∀ (L : List (List SField)) (counts : String → Nat), 1 ≤ counts X →
      (selectSpec nameOf counts L).filter (fun g => nameOf g == X) = [] := by
  intro L
  induction L with
  | nil => intro counts _; rfl
  | cons lv rest ih =>
    intro counts hpos
    have hcl : 1 ≤ countLevel nameOf counts lv X := by
      rw [countLevel_apply]; omega
    rw [selectSpec_cons, List.filter_append, ih _ hcl, List.append_nil,
      List.filter_filter]
    apply List.filter_eq_nil_iff.mpr
    intro g hg hcontra
    rw [Bool.and_eq_true] at hcontra
    obtain ⟨hX, hsel⟩ := hcontra
    rw [Bool.and_eq_true] at hsel
    obtain ⟨_, hc1⟩ := hsel
    have hgX : nameOf g = X := by simpa using hX
    have hcnt : 1 ≤ lv.countP (fun g' => nameOf g' == X) :=
      List.countP_pos_iff.mpr ⟨g, hg, hX⟩
    rw [hgX] at hc1
    have hone : countLevel nameOf counts lv X = 1 := by simpa using hc1
    rw [countLevel_apply] at hone
    omega

theorem mem_selectSpec_not_dash (nameOf : SField → String) :
    ∀ (L : List (List SField)) (counts : String → Nat) (g : SField),
      g ∈ selectSpec nameOf counts L → tagGet g.tags "reflect" ≠ "-" := by
  intro L
  induction L with
  | nil => intro counts g hg; cases hg
  | cons lv rest ih =>
    intro counts g hg
    rw [selectSpec_cons, List.mem_append] at hg
    cases hg with
    | inl h =>
      have hp := List.of_mem_filter h
      rw [Bool.and_eq_true] at hp
      simpa using hp.1
    | inr h => exact ih _ g h

theorem filter_comm' {α : Type} (p q : α → Bool) (l : List α) :
    (l.filter q).filter p = (l.filter p).filter q := by
  rw [List.filter_filter, List.filter_filter]
  apply List.filter_congr
  intro a _
  rw [Bool.and_comm]

end ModelReflect

namespace ModelReflect

theorem structFields_eq (env : Env) (tId : Nat) (nm : String)
    (fields : List SField) (caps : List String) (L : List (List SField))
    (e0 : List String)
    (hlk : lookupType env tId = some ⟨nm, TBody.strct fields caps⟩)
    (hexp : expandStruct env fields = (L, e0)) :
    structFields env tId =
      ((selectLevels env tId (fun f => f.name) L 0 (fun _ => 0)).1,
       e0 ++ (selectLevels env tId (fun f => f.name) L 0 (fun _ => 0)).2) := by
  simp [structFields, structFieldsWith, hlk, hexp]

/-- C1: when a field name occurs at two different embedding depths (with no
same-depth collision anywhere), the shallowest occurrence wins silently:
the selected field list contains exactly one field of that name — the one
from the shallowest level — and the selection phase emits no diagnostic at
all (in particular no `Duplicate` for that name); deeper occurrences are
excluded. -/
theorem C1_cross_depth_shadowing
    (env : Env) (tId : Nat) (nm : String) (fields : List SField)
    (caps : List String) (L1 : List (List SField)) (lvI : List SField)
    (rest : List (List SField)) (e0 : List String) (X : String) (f : SField)
    (hlk : lookupType env tId = some ⟨nm, TBody.strct fields caps⟩)
    (hexp : expandStruct env fields = (L1 ++ lvI :: rest, e0))
    (hL1 : ∀ lv ∈ L1, lv.countP (fun g => g.name == X) = 0)
    (hI : lvI.filter (fun g => g.name == X) = [f])
    (hdeep : ∃ lv ∈ rest, 0 < lv.countP (fun g => g.name == X))
    (hlocal : ∀ lv ∈ L1 ++ lvI :: rest, ∀ n,
      lv.countP (fun g => g.name == n) ≤ 1)
    (htag : tagGet f.tags "reflect" ≠ "-") :
    (structFields env tId).1.filter (fun g => g.name == X) = [f] ∧
    (structFields env tId).2 = e0 := by
  rw [structFields_eq env tId nm fields caps _ e0 hlk hexp]
  constructor
  · show ((selectLevels env tId (fun f => f.name) (L1 ++ lvI :: rest) 0
      (fun _ => 0)).1).filter (fun g => g.name == X) = [f]
    rw [selectLevels_fst, selectSpec_append, List.filter_append]
    obtain ⟨hz, hcA⟩ :=
      selectSpec_filter_of_countP_zero (fun g => g.name) X L1 (fun _ => 0) hL1
    rw [hz, List.nil_append, selectSpec_cons, List.filter_append]
    have hcnt1 : lvI.countP (fun g => g.name == X) = 1 := by
      rw [List.countP_eq_length_filter, hI]
      rfl
    have hcI : countLevel (fun g => g.name)
        (countsAfter (fun g => g.name) (fun _ => 0) L1) lvI X = 1 := by
      rw [countLevel_apply, hcA, hcnt1]
    have hfmem : f ∈ lvI.filter (fun g => g.name == X) := by
      rw [hI]; exact List.mem_singleton_self f
    have hfX : f.name = X := by simpa using List.of_mem_filter hfmem
    have hA : (lvI.filter (fun g =>
        !(tagGet g.tags "reflect" == "-") &&
          (countLevel (fun g => g.name)
            (countsAfter (fun g => g.name) (fun _ => 0) L1) lvI g.name == 1))).filter
        (fun g => g.name == X) = [f] := by
      rw [filter_comm', hI, List.filter_cons]
      simp [htag, hfX, hcI]
    have hB : (selectSpec (fun g => g.name)
        (countLevel (fun g => g.name)
          (countsAfter (fun g => g.name) (fun _ => 0) L1) lvI) rest).filter
        (fun g => g.name == X) = [] :=
      selectSpec_filter_of_pos (fun g => g.name) X rest _ (by omega)
    rw [hA, hB, List.append_nil]
  · show e0 ++ (selectLevels env tId (fun f => f.name) (L1 ++ lvI :: rest) 0
      (fun _ => 0)).2 = e0
    rw [selectLevels_snd_nil env tId (fun f => f.name) _ 0 (fun _ => 0) hlocal,
      List.append_nil]

/-- Witness for C1 on `envShadow` (`B{A; X int}` with `A{X int}`): the
outer `X` alone survives, no diagnostic is produced, and the signature is
`"{ X:int }"`. -/
theorem C1_witness :
    (structFields envShadow 0).1.filter (fun g => g.name == "X") =
      [⟨"X", 2, true, false, []⟩] ∧
    (structFields envShadow 0).2 = [] ∧
    (typeToString envShadow (some 0)).1 = "{ X:int }" := by
  have h := C1_cross_depth_shadowing envShadow 0 "B"
    [⟨"A", 1, true, true, []⟩, ⟨"X", 2, true, false, []⟩] []
    [] [⟨"X", 2, true, false, []⟩] [[⟨"X", 2, true, false, []⟩]] [] "X"
    ⟨"X", 2, true, false, []⟩
    (by decide) (by decide) (by decide) (by decide) (by decide)
    (by
      intro lv hlv n
      have hle : lv.countP (fun g => g.name == n) ≤ lv.length := by
        rw [List.countP_eq_length_filter]
        exact List.length_filter_le _ _
      simp only [List.nil_append, List.mem_cons, List.mem_singleton] at hlv
      rcases hlv with rfl | rfl | h
      · simpa using hle
      · simpa using hle
      · cases h)
    (by decide)
  exact ⟨h.1, h.2, by decide⟩

/-- Shared helper for the same-depth collision claims: if a name `X`
collides (count `c ≥ 2`) at exactly one level of the expansion, at least
one colliding occurrence is untagged, and every other name is locally
unique everywhere, then no field named `X` survives the selection and the
selection contributes exactly one `Duplicate` diagnostic, mentioning the
level index and the full count `c`. -/
theorem structFields_same_depth_dup
    (env : Env) (tId : Nat) (nm : String) (fields : List SField)
    (caps : List String) (L1 : List (List SField)) (lvK : List SField)
    (L2 : List (List SField)) (e0 : List String) (X : String) (c : Nat)
    (hlk : lookupType env tId = some ⟨nm, TBody.strct fields caps⟩)
    (hexp : expandStruct env fields = (L1 ++ lvK :: L2, e0))
    (hK : lvK.countP (fun g => g.name == X) = c) (hc2 : 2 ≤ c)
    (hany : lvK.any (fun g =>
      (g.name == X) && !(tagGet g.tags "reflect" == "-")) = true)
    (hL1 : ∀ lv ∈ L1, lv.countP (fun g => g.name == X) = 0)
    (hL2 : ∀ lv ∈ L2, lv.countP (fun g => g.name == X) = 0)
    (hothers : ∀ lv ∈ L1 ++ lvK :: L2, ∀ n, n ≠ X →
      lv.countP (fun g => g.name == n) ≤ 1) :
    (structFields env tId).1.filter (fun g => g.name == X) = [] ∧
    (structFields env tId).2 = e0 ++ [dupMsg env tId L1.length c X] := by
  rw [structFields_eq env tId nm fields caps _ e0 hlk hexp]
  obtain ⟨hz, hcA⟩ :=
    selectSpec_filter_of_countP_zero (fun g => g.name) X L1 (fun _ => 0) hL1
  have hcK : countLevel (fun g => g.name)
      (countsAfter (fun g => g.name) (fun _ => 0) L1) lvK X = c := by
    rw [countLevel_apply, hcA, hK]
    omega
  constructor
  · show ((selectLevels env tId (fun f => f.name) (L1 ++ lvK :: L2) 0
      (fun _ => 0)).1).filter (fun g => g.name == X) = []
    rw [selectLevels_fst, selectSpec_append, List.filter_append, hz,
      List.nil_append, selectSpec_cons, List.filter_append]
    have hA : (lvK.filter (fun g =>
        !(tagGet g.tags "reflect" == "-") &&
          (countLevel (fun g => g.name)
            (countsAfter (fun g => g.name) (fun _ => 0) L1) lvK g.name == 1))).filter
        (fun g => g.name == X) = [] := by
      rw [List.filter_filter]
      apply List.filter_eq_nil_iff.mpr
      intro g hg hcontra
      rw [Bool.and_eq_true] at hcontra
      obtain ⟨hgX, hsel⟩ := hcontra
      rw [Bool.and_eq_true] at hsel
      obtain ⟨_, hone⟩ := hsel
      have hgX' : g.name = X := by simpa using hgX
      rw [hgX', hcK] at hone
      have : c = 1 := by simpa using hone
      omega
    have hB : (selectSpec (fun g => g.name)
        (countLevel (fun g => g.name)
          (countsAfter (fun g => g.name) (fun _ => 0) L1) lvK) L2).filter
        (fun g => g.name == X) = [] :=
      selectSpec_filter_of_pos (fun g => g.name) X L2 _ (by omega)
    rw [hA, hB]
    rfl
  · show e0 ++ (selectLevels env tId (fun f => f.name) (L1 ++ lvK :: L2) 0
      (fun _ => 0)).2 = e0 ++ [dupMsg env tId L1.length c X]
    rw [selectLevels_snd_append]
    simp only [Nat.zero_add]
    have h1 : (selectLevels env tId (fun f => f.name) L1 0 (fun _ => 0)).2 = [] := by
      apply selectLevels_snd_nil
      intro lv hlv n
      by_cases hn : n = X
      · subst hn; rw [hL1 lv hlv]; omega
      · exact hothers lv (List.mem_append.mpr (Or.inl hlv)) n hn
    have hlocK : ∀ g ∈ lvK, g.name ≠ X →
        countLevel (fun g => g.name) (fun _ => 0) lvK g.name ≤ 1 := by
      intro g hg hgX
      rw [countLevel_apply]
      have := hothers lvK (List.mem_append.mpr (Or.inr (List.mem_cons_self lvK L2)))
        g.name hgX
      omega
    have hlocX : countLevel (fun g => g.name) (fun _ => 0) lvK X > 1 := by
      rw [countLevel_apply, hK]
      omega
    have hlocXc : countLevel (fun g => g.name) (fun _ => 0) lvK X = c := by
      rw [countLevel_apply, hK]
      omega
    have h2 : (selectLevels env tId (fun f => f.name) (lvK :: L2) L1.length
        (countsAfter (fun g => g.name) (fun _ => 0) L1)).2 =
        [dupMsg env tId L1.length c X] := by
      show ((emitLevel env tId (fun f => f.name) L1.length _ _ lvK (fun _ => false)).2 ++
        (selectLevels env tId (fun f => f.name) L2 (L1.length + 1) _).2) =
        [dupMsg env tId L1.length c X]
      rw [emitLevel_snd_dup env tId (fun f => f.name) L1.length _ _ X lvK
        (fun _ => false) hlocK hlocX]
      rw [if_pos ⟨rfl, hany⟩, hlocXc]
      have h3 : (selectLevels env tId (fun f => f.name) L2 (L1.length + 1)
          (countLevel (fun g => g.name)
            (countsAfter (fun g => g.name) (fun _ => 0) L1) lvK)).2 = [] := by
        apply selectLevels_snd_nil
        intro lv hlv n
        by_cases hn : n = X
        · subst hn; rw [hL2 lv hlv]; omega
        · exact hothers lv
            (List.mem_append.mpr (Or.inr (List.mem_cons_of_mem lvK hlv))) n hn
      rw [h3, List.append_nil]
    rw [h1, List.nil_append, h2]

end ModelReflect

namespace ModelReflect

/-- C2 counterexample: in `envDup` two fields named `X` occur at embed
level 1 of the expansion and the name is unique at every other depth, yet
neither occurrence is retained — the selected field list is empty and the
signature shows no `X` — refuting the claim that all colliding occurrences
remain visible. -/
theorem C2_counterexample :
    (expandStruct envDup
      [⟨"E1", 1, true, true, []⟩, ⟨"E2", 2, true, true, []⟩]).1 =
      [[], [⟨"X", 3, true, false, []⟩, ⟨"X", 3, true, false, []⟩]] ∧
    (structFields envDup 0).1 = [] ∧
    (typeToString envDup (some 0)).1 = "{  }" := by decide

/-- C2 (amended): two or more fields at the same embedding depth with the
same resolved name, none of them tagged `reflect:"-"`, produce exactly one
`Duplicate` diagnostic for that name (naming the level and the full
occurrence count), and — contrary to the original claim — every colliding
occurrence is excluded from the selected field list even when the name is
globally unique across the other depths. -/
theorem C2_same_depth_collision_amended
    (env : Env) (tId : Nat) (nm : String) (fields : List SField)
    (caps : List String) (L1 : List (List SField)) (lvK : List SField)
    (L2 : List (List SField)) (e0 : List String) (X : String) (c : Nat)
    (hlk : lookupType env tId = some ⟨nm, TBody.strct fields caps⟩)
    (hexp : expandStruct env fields = (L1 ++ lvK :: L2, e0))
    (hK : lvK.countP (fun g => g.name == X) = c) (hc2 : 2 ≤ c)
    (huntag : ∀ g ∈ lvK, g.name = X → tagGet g.tags "reflect" ≠ "-")
    (hL1 : ∀ lv ∈ L1, lv.countP (fun g => g.name == X) = 0)
    (hL2 : ∀ lv ∈ L2, lv.countP (fun g => g.name == X) = 0)
    (hothers : ∀ lv ∈ L1 ++ lvK :: L2, ∀ n, n ≠ X →
      lv.countP (fun g => g.name == n) ≤ 1) :
    (structFields env tId).1.filter (fun g => g.name == X) = [] ∧
    (structFields env tId).2 = e0 ++ [dupMsg env tId L1.length c X] := by
  have hpos : 0 < lvK.countP (fun g => g.name == X) := by rw [hK]; omega
  obtain ⟨g, hg, hgX⟩ := List.countP_pos_iff.mp hpos
  have hany : lvK.any (fun g =>
      (g.name == X) && !(tagGet g.tags "reflect" == "-")) = true := by
    rw [List.any_eq_true]
    refine ⟨g, hg, ?_⟩
    rw [Bool.and_eq_true]
    refine ⟨hgX, ?_⟩
    have hne := huntag g hg (by simpa using hgX)
    simpa using hne
  exact structFields_same_depth_dup env tId nm fields caps L1 lvK L2 e0 X c
    hlk hexp hK hc2 hany hL1 hL2 hothers

/-- Witness for the amended C2 on `envDup`: the two same-depth `X` fields
yield one `Duplicate` diagnostic (level 1, count 2) and no surviving `X`. -/
theorem C2_amended_witness :
    (structFields envDup 0).1.filter (fun g => g.name == "X") = [] ∧
    (structFields envDup 0).2 = [] ++ [dupMsg envDup 0 1 2 "X"] := by
  have hnames : ∀ lv ∈ ([[]] ++
      [(⟨"X", 3, true, false, []⟩ : SField), ⟨"X", 3, true, false, []⟩] ::
        ([] : List (List SField))), ∀ g ∈ lv, g.name = "X" := by decide
  exact C2_same_depth_collision_amended envDup 0 "S"
    [⟨"E1", 1, true, true, []⟩, ⟨"E2", 2, true, true, []⟩] []
    [[]] [⟨"X", 3, true, false, []⟩, ⟨"X", 3, true, false, []⟩] [] [] "X" 2
    (by decide) (by decide) (by decide) (by decide) (by decide) (by decide)
    (by decide)
    (by
      intro lv hlv n hn
      have h0 : lv.countP (fun g => g.name == n) = 0 := by
        apply List.countP_eq_zero.mpr
        intro g hg hgn
        have hx := hnames lv hlv g hg
        have hgn' : g.name = n := by simpa using hgn
        exact hn (by rw [← hgn', hx])
      omega)

/-- C8 counterexample: in `envDupTag` the field `A` of `E1` carries the
ignore tag `reflect:"-"`; the claim says it is dropped before duplicate
counting, so `E2`'s untagged `A` should survive with no diagnostic — but
the code counts the tagged field: the untagged `A` is excluded and a
`Duplicate` diagnostic with count 2 is emitted. -/
theorem C8_counterexample :
    (structFields envDupTag 0).1 = [] ∧
    (structFields envDupTag 0).2 =
      ["type S (embed level 1): duplicate fields [2]A"] := by decide

/-- C8 (amended): a field tagged `reflect:"-"` is itself dropped from the
selection and never itself emits a diagnostic, but it is **not** dropped
before duplicate counting: it still increments the per-level counts, so an
untagged field with the same resolved name at the same depth receives a
`Duplicate` diagnostic whose count includes the tagged field, and is
excluded from the selected field list. -/
theorem C8_ignore_tag_participates_in_counting_amended
    (env : Env) (tId : Nat) (nm : String) (fields : List SField)
    (caps : List String) (L1 : List (List SField)) (lvK : List SField)
    (L2 : List (List SField)) (e0 : List String) (X : String) (c : Nat)
    (hlk : lookupType env tId = some ⟨nm, TBody.strct fields caps⟩)
    (hexp : expandStruct env fields = (L1 ++ lvK :: L2, e0))
    (hK : lvK.countP (fun g => g.name == X) = c) (hc2 : 2 ≤ c)
    (htagged : ∃ g ∈ lvK, g.name = X ∧ tagGet g.tags "reflect" = "-")
    (huntagged : ∃ g ∈ lvK, g.name = X ∧ tagGet g.tags "reflect" ≠ "-")
    (hL1 : ∀ lv ∈ L1, lv.countP (fun g => g.name == X) = 0)
    (hL2 : ∀ lv ∈ L2, lv.countP (fun g => g.name == X) = 0)
    (hothers : ∀ lv ∈ L1 ++ lvK :: L2, ∀ n, n ≠ X →
      lv.countP (fun g => g.name == n) ≤ 1) :
    (structFields env tId).1.filter (fun g => g.name == X) = [] ∧
    (structFields env tId).2 = e0 ++ [dupMsg env tId L1.length c X] ∧
    (∀ g ∈ (structFields env tId).1, tagGet g.tags "reflect" ≠ "-") := by
  obtain ⟨g, hg, hgX, hgtag⟩ := huntagged
  have hany : lvK.any (fun g =>
      (g.name == X) && !(tagGet g.tags "reflect" == "-")) = true := by
    rw [List.any_eq_true]
    refine ⟨g, hg, ?_⟩
    rw [Bool.and_eq_true]
    exact ⟨by simpa using hgX, by simpa using hgtag⟩
  have h := structFields_same_depth_dup env tId nm fields caps L1 lvK L2 e0 X c
    hlk hexp hK hc2 hany hL1 hL2 hothers
  refine ⟨h.1, h.2, ?_⟩
  intro g' hg'
  rw [structFields_eq env tId nm fields caps _ e0 hlk hexp] at hg'
  simp only at hg'
  rw [selectLevels_fst] at hg'
  exact mem_selectSpec_not_dash (fun f => f.name) _ _ g' hg'

/-- Witness for the amended C8 on `envDupTag`: the tagged `A` inflates the
count to 2, the untagged `A` is excluded and diagnosed, and no tagged field
appears in the selection. -/
theorem C8_amended_witness :
    (structFields envDupTag 0).1.filter (fun g => g.name == "A") = [] ∧
    (structFields envDupTag 0).2 = [] ++ [dupMsg envDupTag 0 1 2 "A"] ∧
    (∀ g ∈ (structFields envDupTag 0).1, tagGet g.tags "reflect" ≠ "-") := by
  have hnames : ∀ lv ∈ ([[]] ++
      [(⟨"A", 3, true, false, [("reflect", "-")]⟩ : SField),
        ⟨"A", 3, true, false, []⟩] :: ([] : List (List SField))),
      ∀ g ∈ lv, g.name = "A" := by decide
  exact C8_ignore_tag_participates_in_counting_amended envDupTag 0 "S"
    [⟨"E1", 1, true, true, []⟩, ⟨"E2", 2, true, true, []⟩] []
    [[]] [⟨"A", 3, true, false, [("reflect", "-")]⟩, ⟨"A", 3, true, false, []⟩]
    [] [] "A" 2
    (by decide) (by decide) (by decide) (by decide) (by decide) (by decide)
    (by decide) (by decide)
    (by
      intro lv hlv n hn
      have h0 : lv.countP (fun g => g.name == n) = 0 := by
        apply List.countP_eq_zero.mpr
        intro g hg hgn
        have hx := hnames lv hlv g hg
        have hgn' : g.name = n := by simpa using hgn
        exact hn (by rw [← hgn', hx])
      omega)

end ModelReflect

namespace ModelReflect

/-! ### Claim C7: level-permutation infrastructure -/

theorem LevelPerm.refl (A : List (List SField)) : LevelPerm A A := by
  induction A with
  | nil => exact List.Forall₂.nil
  | cons a A ih => exact List.Forall₂.cons (List.Perm.refl a) ih

theorem LevelPerm.trans {A B C : List (List SField)}
    (h1 : LevelPerm A B) (h2 : LevelPerm B C) : LevelPerm A C := by
  induction h1 generalizing C with
  | nil => exact h2
  | cons hab h ih =>
    cases h2 with
    | cons hbc h2' => exact List.Forall₂.cons (hab.trans hbc) (ih h2')

theorem mergeLevels_nil_left (B : List (List SField)) :
    mergeLevels [] B = B := by
  cases B <;> rfl

theorem mergeLevels_nil_right (A : List (List SField)) :
    mergeLevels A [] = A := by
  cases A <;> rfl

theorem mergeLevels_cons (a b : List SField) (A B : List (List SField)) :
    mergeLevels (a :: A) (b :: B) = (a ++ b) :: mergeLevels A B := rfl

theorem mergeLevels_assoc (A B C : List (List SField)) :
    mergeLevels (mergeLevels A B) C = mergeLevels A (mergeLevels B C) := by
  induction A generalizing B C with
  | nil => rw [mergeLevels_nil_left, mergeLevels_nil_left]
  | cons a A ih =>
    cases B with
    | nil => rw [mergeLevels_nil_right, mergeLevels_nil_left]
    | cons b B =>
      cases C with
      | nil => rw [mergeLevels_nil_right, mergeLevels_nil_right]
      | cons c C =>
        simp only [mergeLevels_cons, List.append_assoc, ih]

theorem LevelPerm.merge {A A' B B' : List (List SField)}
    (hA : LevelPerm A A') (hB : LevelPerm B B') :
    LevelPerm (mergeLevels A B) (mergeLevels A' B') := by
  induction hA generalizing B B' with
  | nil =>
    rw [mergeLevels_nil_left, mergeLevels_nil_left]
    exact hB
  | cons hab h ih =>
    cases hB with
    | nil =>
      rw [mergeLevels_nil_right, mergeLevels_nil_right]
      exact List.Forall₂.cons hab h
    | cons hcd hB' =>
      rw [mergeLevels_cons, mergeLevels_cons]
      exact List.Forall₂.cons (hab.append hcd) (ih hB')

theorem LevelPerm.merge_comm (A B : List (List SField)) :
    LevelPerm (mergeLevels A B) (mergeLevels B A) := by
  induction A generalizing B with
  | nil =>
    rw [mergeLevels_nil_left, mergeLevels_nil_right]
    exact LevelPerm.refl B
  | cons a A ih =>
    cases B with
    | nil => exact LevelPerm.refl _
    | cons b B =>
      rw [mergeLevels_cons, mergeLevels_cons]
      exact List.Forall₂.cons (List.perm_append_comm) (ih B)

theorem ensureLevels_cons_zero (a : List SField) (A : List (List SField)) :
    ensureLevels (a :: A) 0 = a :: A := by
  simp [ensureLevels]

theorem ensureLevels_cons_succ (a : List SField) (A : List (List SField)) (d : Nat) :
    ensureLevels (a :: A) (d + 1) = a :: ensureLevels A d := by
  simp only [ensureLevels, List.cons_append, List.length_cons]
  have harith : d + 1 + 1 - (A.length + 1) = d + 1 - A.length := by omega
  rw [harith]

theorem appendAt_cons_zero (x : List SField) (xs : List (List SField)) (f : SField) :
    appendAt (x :: xs) 0 f = (x ++ [f]) :: xs := by
  simp [appendAt, List.getD]

theorem appendAt_cons_succ (x : List SField) (xs : List (List SField)) (d : Nat)
    (f : SField) :
    appendAt (x :: xs) (d + 1) f = x :: appendAt xs d f := by
  simp [appendAt, List.getD, List.set_cons_succ]

theorem ensureLevels_eq_merge (A : List (List SField)) (d : Nat) :
    ensureLevels A d = mergeLevels A (List.replicate (d + 1) []) := by
  induction A generalizing d with
  | nil =>
    rw [mergeLevels_nil_left]
    simp [ensureLevels]
  | cons a A ih =>
    rw [List.replicate_succ, mergeLevels_cons, List.append_nil]
    cases d with
    | zero =>
      rw [List.replicate, mergeLevels_nil_right]
      exact ensureLevels_cons_zero a A
    | succ d =>
      rw [← ih d, ensureLevels_cons_succ]

theorem appendAt_replicate (f : SField) :
    ∀ d : Nat, appendAt (List.replicate (d + 1) []) d f =
      List.replicate d [] ++ [[f]] := by
  intro d
  induction d with
  | zero => rfl
  | succ d ihd =>
    rw [List.replicate_succ, appendAt_cons_succ, ihd, List.replicate_succ,
      List.cons_append]

theorem appendAt_ensure_eq_merge (A : List (List SField)) (d : Nat) (f : SField) :
    appendAt (ensureLevels A d) d f =
      mergeLevels A (List.replicate d [] ++ [[f]]) := by
  induction A generalizing d with
  | nil =>
    rw [mergeLevels_nil_left]
    have he : ensureLevels ([] : List (List SField)) d = List.replicate (d + 1) [] := by
      simp [ensureLevels]
    rw [he, appendAt_replicate]
  | cons a A ih =>
    cases d with
    | zero =>
      rw [ensureLevels_cons_zero, appendAt_cons_zero]
      show (a ++ [f]) :: A = mergeLevels (a :: A) ([f] :: [])
      rw [mergeLevels_cons, mergeLevels_nil_right]
    | succ d =>
      rw [ensureLevels_cons_succ, appendAt_cons_succ, ih d, List.replicate_succ,
        List.cons_append, mergeLevels_cons, List.append_nil]

end ModelReflect

namespace ModelReflect

theorem expandFold_acc (fuel : Nat) (env : Env) :
    ∀ (fs : List SField) (types : List Nat) (r : List (List SField))
      (e : List String),
      fs.foldl (fun p g =>
        let q := expandFieldFuel fuel env g types p.1
        (q.1, p.2 ++ q.2)) (r, e) =
      ((expandFoldFuel fuel env fs types r).1,
       e ++ (expandFoldFuel fuel env fs types r).2) := by
  intro fs
  induction fs with
  | nil => intro types r e; simp [expandFoldFuel]
  | cons f fs ih =>
    intro types r e
    simp only [List.foldl_cons]
    rw [ih]
    have hR : expandFoldFuel fuel env (f :: fs) types r =
        ((expandFoldFuel fuel env fs types
            (expandFieldFuel fuel env f types r).1).1,
         (expandFieldFuel fuel env f types r).2 ++
           (expandFoldFuel fuel env fs types
             (expandFieldFuel fuel env f types r).1).2) := by
      show List.foldl _ (r, []) (f :: fs) = _
      simp only [List.foldl_cons]
      rw [ih]
      simp
    rw [hR]
    simp [List.append_assoc]

theorem expandFold_cons (fuel : Nat) (env : Env) (g : SField) (gs : List SField)
    (types : List Nat) (r : List (List SField)) :
    expandFoldFuel fuel env (g :: gs) types r =
      ((expandFoldFuel fuel env gs types
          (expandFieldFuel fuel env g types r).1).1,
       (expandFieldFuel fuel env g types r).2 ++
         (expandFoldFuel fuel env gs types
           (expandFieldFuel fuel env g types r).1).2) := by
  show List.foldl _ (r, []) (g :: gs) = _
  simp only [List.foldl_cons]
  rw [expandFold_acc]
  simp

theorem ensureLevels_nil (d : Nat) :
    ensureLevels ([] : List (List SField)) d = List.replicate (d + 1) [] := by
  simp [ensureLevels]

theorem expandFieldFuel_loop_eq (fuel : Nat) (env : Env) (f : SField)
    (types : List Nat) (acc : List (List SField))
    (hm : baseType env f.typeId ∈ types) :
    expandFieldFuel (fuel + 1) env f types acc =
      (ensureLevels acc types.length, [loopMsg env (baseType env f.typeId)]) := by
  simp [expandFieldFuel, hm]

theorem expandFieldFuel_anon_eq (fuel : Nat) (env : Env) (f : SField)
    (types : List Nat) (acc : List (List SField)) (nm : String)
    (fields : List SField) (caps : List String)
    (hm : baseType env f.typeId ∉ types)
    (hl : lookupType env (baseType env f.typeId) =
      some ⟨nm, TBody.strct fields caps⟩)
    (ha : f.anonymous = true) :
    expandFieldFuel (fuel + 1) env f types acc =
      expandFoldFuel fuel env fields (types ++ [baseType env f.typeId])
        (ensureLevels acc types.length) := by
  simp only [expandFieldFuel, if_neg hm, hl, if_pos ha]
  rfl

theorem expandFieldFuel_record_eq (fuel : Nat) (env : Env) (f : SField)
    (types : List Nat) (acc : List (List SField))
    (hm : baseType env f.typeId ∉ types)
    (hrec : expandsInline env f = false) :
    expandFieldFuel (fuel + 1) env f types acc =
      (appendAt (ensureLevels acc types.length) types.length f, []) := by
  simp only [expandFieldFuel, if_neg hm]
  unfold expandsInline at hrec
  cases hl : lookupType env (baseType env f.typeId) with
  | none => simp [hl]
  | some d =>
    obtain ⟨nm, body⟩ := d
    rw [hl] at hrec
    cases body with
    | strct fields caps =>
      simp only [] at hrec
      simp [hl, hrec]
    | prim k => simp [hl]
    | ptr e => simp [hl]
    | slice e => simp [hl]
    | arr n e => simp [hl]
    | tmap k e => simp [hl]
    | interf => simp [hl]
    | func => simp [hl]
    | chan => simp [hl]
    | unsafePointer => simp [hl]

theorem expandsInline_spec {env : Env} {f : SField}
    (h : expandsInline env f = true) :
    ∃ nm fields caps, lookupType env (baseType env f.typeId) =
      some ⟨nm, TBody.strct fields caps⟩ ∧ f.anonymous = true := by
  unfold expandsInline at h
  cases hl : lookupType env (baseType env f.typeId) with
  | none => rw [hl] at h; cases h
  | some d =>
    obtain ⟨nm, body⟩ := d
    rw [hl] at h
    cases body with
    | strct fields caps =>
      refine ⟨nm, fields, caps, rfl, ?_⟩
      simpa using h
    | prim k => cases h
    | ptr e => cases h
    | slice e => cases h
    | arr n e => cases h
    | tmap k e => cases h
    | interf => cases h
    | func => cases h
    | chan => cases h
    | unsafePointer => cases h

theorem expandField_merge (env : Env) :
    ∀ (fuel : Nat) (f : SField) (types : List Nat) (acc : List (List SField)),
      (expandFieldFuel fuel env f types acc).1 =
        mergeLevels acc (expandFieldFuel fuel env f types []).1 ∧
      (expandFieldFuel fuel env f types acc).2 =
        (expandFieldFuel fuel env f types []).2 := by
  intro fuel
  induction fuel with
  | zero =>
    intro f types acc
    exact ⟨(mergeLevels_nil_right acc).symm, rfl⟩
  | succ fuel ih =>
    have ihfold : ∀ (fs : List SField) (types : List Nat)
        (acc : List (List SField)),
        (expandFoldFuel fuel env fs types acc).1 =
          mergeLevels acc (expandFoldFuel fuel env fs types []).1 ∧
        (expandFoldFuel fuel env fs types acc).2 =
          (expandFoldFuel fuel env fs types []).2 := by
      intro fs
      induction fs with
      | nil =>
        intro types acc
        exact ⟨(mergeLevels_nil_right acc).symm, rfl⟩
      | cons g gs ihg =>
        intro types acc
        rw [expandFold_cons, expandFold_cons]
        constructor
        · show (expandFoldFuel fuel env gs types
            (expandFieldFuel fuel env g types acc).1).1 = _
          rw [(ihg types (expandFieldFuel fuel env g types acc).1).1,
            (ih g types acc).1,
            (ihg types (expandFieldFuel fuel env g types []).1).1,
            (ih g types []).1, mergeLevels_nil_left, mergeLevels_assoc]
        · show (expandFieldFuel fuel env g types acc).2 ++ _ = _
          rw [(ih g types acc).2,
            (ihg types (expandFieldFuel fuel env g types acc).1).2,
            (ihg types (expandFieldFuel fuel env g types []).1).2]
    intro f types acc
    by_cases hm : baseType env f.typeId ∈ types
    · rw [expandFieldFuel_loop_eq fuel env f types acc hm,
        expandFieldFuel_loop_eq fuel env f types [] hm]
      refine ⟨?_, rfl⟩
      rw [ensureLevels_nil, ensureLevels_eq_merge]
    · by_cases hrec : expandsInline env f = true
      · obtain ⟨nm, fields, caps, hl, ha⟩ := expandsInline_spec hrec
        rw [expandFieldFuel_anon_eq fuel env f types acc nm fields caps hm hl ha,
          expandFieldFuel_anon_eq fuel env f types [] nm fields caps hm hl ha]
        constructor
        · rw [(ihfold fields (types ++ [baseType env f.typeId])
            (ensureLevels acc types.length)).1,
            (ihfold fields (types ++ [baseType env f.typeId])
              (ensureLevels [] types.length)).1,
            ensureLevels_nil, ensureLevels_eq_merge, mergeLevels_assoc]
        · rw [(ihfold fields (types ++ [baseType env f.typeId])
            (ensureLevels acc types.length)).2,
            (ihfold fields (types ++ [baseType env f.typeId])
              (ensureLevels [] types.length)).2]
      · have hrec' : expandsInline env f = false := by
          cases hv : expandsInline env f with
          | true => exact absurd hv hrec
          | false => rfl
        rw [expandFieldFuel_record_eq fuel env f types acc hm hrec',
          expandFieldFuel_record_eq fuel env f types [] hm hrec']
        refine ⟨?_, rfl⟩
        rw [ensureLevels_nil, appendAt_replicate, appendAt_ensure_eq_merge]

theorem expandFold_merge (fuel : Nat) (env : Env) (fs : List SField)
    (types : List Nat) (acc : List (List SField)) :
    (expandFoldFuel fuel env fs types acc).1 =
      mergeLevels acc (expandFoldFuel fuel env fs types []).1 ∧
    (expandFoldFuel fuel env fs types acc).2 =
      (expandFoldFuel fuel env fs types []).2 := by
  induction fs generalizing acc with
  | nil => exact ⟨(mergeLevels_nil_right acc).symm, rfl⟩
  | cons g gs ihg =>
    rw [expandFold_cons, expandFold_cons]
    constructor
    · show (expandFoldFuel fuel env gs types
        (expandFieldFuel fuel env g types acc).1).1 = _
      rw [(ihg (expandFieldFuel fuel env g types acc).1).1,
        (expandField_merge env fuel g types acc).1,
        (ihg (expandFieldFuel fuel env g types []).1).1,
        (expandField_merge env fuel g types []).1,
        mergeLevels_nil_left, mergeLevels_assoc]
    · show (expandFieldFuel fuel env g types acc).2 ++ _ = _
      rw [(expandField_merge env fuel g types acc).2,
        (ihg (expandFieldFuel fuel env g types acc).1).2,
        (ihg (expandFieldFuel fuel env g types []).1).2]

end ModelReflect

namespace ModelReflect

theorem expandFoldFuel_zero (env : Env) :
    ∀ (fs : List SField) (types : List Nat) (acc : List (List SField)),
      (expandFoldFuel 0 env fs types acc).1 = acc := by
  intro fs
  induction fs with
  | nil => intro types acc; rfl
  | cons g gs ih =>
    intro types acc
    rw [expandFold_cons]
    exact ih types acc

section PermutedEnv

variable {env1 env2 : Env} {t : Nat} {nm : String} {fs1 fs2 : List SField}
  {caps : List String}

theorem baseTypeFuel_congr
    (h1 : lookupType env1 t = some ⟨nm, TBody.strct fs1 caps⟩)
    (h2 : lookupType env2 t = some ⟨nm, TBody.strct fs2 caps⟩)
    (hother : ∀ s, s ≠ t → lookupType env1 s = lookupType env2 s) :
    ∀ (fl : Nat) (i : Nat), baseTypeFuel env1 fl i = baseTypeFuel env2 fl i := by
  intro fl
  induction fl with
  | zero => intro i; rfl
  | succ fl ih =>
    intro i
    simp only [baseTypeFuel]
    by_cases hi : i = t
    · subst hi
      rw [h1, h2]
    · rw [hother i hi]
      cases lookupType env2 i with
      | none => rfl
      | some d =>
        obtain ⟨n, b⟩ := d
        cases b with
        | ptr e => exact ih e
        | prim k => rfl
        | slice e => rfl
        | arr n e => rfl
        | tmap k e => rfl
        | strct fs caps => rfl
        | interf => rfl
        | func => rfl
        | chan => rfl
        | unsafePointer => rfl

theorem baseType_congr (hlen : env1.length = env2.length)
    (h1 : lookupType env1 t = some ⟨nm, TBody.strct fs1 caps⟩)
    (h2 : lookupType env2 t = some ⟨nm, TBody.strct fs2 caps⟩)
    (hother : ∀ s, s ≠ t → lookupType env1 s = lookupType env2 s) :
    ∀ i, baseType env1 i = baseType env2 i := by
  intro i
  unfold baseType
  rw [hlen]
  exact baseTypeFuel_congr h1 h2 hother _ i

theorem isConcrete_congr
    (h1 : lookupType env1 t = some ⟨nm, TBody.strct fs1 caps⟩)
    (h2 : lookupType env2 t = some ⟨nm, TBody.strct fs2 caps⟩)
    (hother : ∀ s, s ≠ t → lookupType env1 s = lookupType env2 s) :
    ∀ i, isConcrete env1 i = isConcrete env2 i := by
  intro i
  unfold isConcrete
  by_cases hi : i = t
  · subst hi
    rw [h1, h2]
    rfl
  · rw [hother i hi]

theorem expandsInline_congr (hlen : env1.length = env2.length)
    (h1 : lookupType env1 t = some ⟨nm, TBody.strct fs1 caps⟩)
    (h2 : lookupType env2 t = some ⟨nm, TBody.strct fs2 caps⟩)
    (hother : ∀ s, s ≠ t → lookupType env1 s = lookupType env2 s) :
    ∀ f, expandsInline env1 f = expandsInline env2 f := by
  intro f
  unfold expandsInline
  rw [baseType_congr hlen h1 h2 hother f.typeId]
  by_cases hb : baseType env2 f.typeId = t
  · rw [hb, h1, h2]
  · rw [hother _ hb]

theorem expandFold_cons_fst (fuel : Nat) (env : Env) (g : SField)
    (gs : List SField) (types : List Nat) :
    (expandFoldFuel fuel env (g :: gs) types []).1 =
      mergeLevels (expandFieldFuel fuel env g types []).1
        (expandFoldFuel fuel env gs types []).1 := by
  rw [expandFold_cons]
  show (expandFoldFuel fuel env gs types
    (expandFieldFuel fuel env g types []).1).1 = _
  rw [(expandFold_merge fuel env gs types _).1]

theorem foldContrib_perm_one_env (env : Env) (fuel : Nat) :
    ∀ {fsA fsB : List SField}, fsA.Perm fsB → ∀ (types : List Nat),
      LevelPerm (expandFoldFuel fuel env fsA types []).1
        (expandFoldFuel fuel env fsB types []).1 := by
  intro fsA fsB hp
  induction hp with
  | nil => intro types; exact LevelPerm.refl _
  | cons f hp ih =>
    intro types
    simp only [expandFold_cons_fst]
    exact LevelPerm.merge (LevelPerm.refl _) (ih types)
  | swap x y l =>
    intro types
    simp only [expandFold_cons_fst]
    rw [← mergeLevels_assoc, ← mergeLevels_assoc]
    exact LevelPerm.merge (LevelPerm.merge_comm _ _) (LevelPerm.refl _)
  | trans hp1 hp2 ih1 ih2 =>
    intro types
    exact (ih1 types).trans (ih2 types)

theorem contrib_LP (hlen : env1.length = env2.length)
    (h1 : lookupType env1 t = some ⟨nm, TBody.strct fs1 caps⟩)
    (h2 : lookupType env2 t = some ⟨nm, TBody.strct fs2 caps⟩)
    (hperm : fs1.Perm fs2)
    (hother : ∀ s, s ≠ t → lookupType env1 s = lookupType env2 s) :
    ∀ fuel : Nat,
      (∀ (f : SField) (types : List Nat),
        LevelPerm (expandFieldFuel fuel env1 f types []).1
          (expandFieldFuel fuel env2 f types []).1) ∧
      (∀ (fs : List SField) (types : List Nat),
        LevelPerm (expandFoldFuel fuel env1 fs types []).1
          (expandFoldFuel fuel env2 fs types []).1) := by
  intro fuel
  induction fuel with
  | zero =>
    constructor
    · intro f types; exact LevelPerm.refl _
    · intro fs types
      rw [expandFoldFuel_zero, expandFoldFuel_zero]
      exact LevelPerm.refl _
  | succ fuel ih =>
    have hE1 : ∀ (f : SField) (types : List Nat),
        LevelPerm (expandFieldFuel (fuel + 1) env1 f types []).1
          (expandFieldFuel (fuel + 1) env2 f types []).1 := by
      intro f types
      have hbase : baseType env1 f.typeId = baseType env2 f.typeId :=
        baseType_congr hlen h1 h2 hother f.typeId
      by_cases hm : baseType env1 f.typeId ∈ types
      · rw [expandFieldFuel_loop_eq fuel env1 f types [] hm,
          expandFieldFuel_loop_eq fuel env2 f types [] (hbase ▸ hm)]
        exact LevelPerm.refl _
      · by_cases hrec : expandsInline env1 f = true
        · obtain ⟨nm', fields, caps', hl, ha⟩ := expandsInline_spec hrec
          by_cases hit : baseType env1 f.typeId = t
          · have hfields : fields = fs1 := by
              rw [hit] at hl
              rw [h1] at hl
              cases hl
              rfl
            have hl2 : lookupType env2 (baseType env2 f.typeId) =
                some ⟨nm, TBody.strct fs2 caps⟩ := by
              rw [← hbase, hit]
              exact h2
            have hl1 : lookupType env1 (baseType env1 f.typeId) =
                some ⟨nm, TBody.strct fs1 caps⟩ := by
              rw [hit]
              exact h1
            rw [expandFieldFuel_anon_eq fuel env1 f types [] nm fs1 caps hm hl1 ha,
              expandFieldFuel_anon_eq fuel env2 f types [] nm fs2 caps
                (hbase ▸ hm) hl2 ha]
            rw [(expandFold_merge fuel env1 fs1 _ _).1,
              (expandFold_merge fuel env2 fs2 _ _).1]
            rw [← hbase]
            apply LevelPerm.merge (LevelPerm.refl _)
            exact (ih.2 fs1 _).trans
              (foldContrib_perm_one_env env2 fuel hperm _)
          · have hl2 : lookupType env2 (baseType env2 f.typeId) =
                some ⟨nm', TBody.strct fields caps'⟩ := by
              rw [← hbase, ← hother _ hit]
              exact hl
            rw [expandFieldFuel_anon_eq fuel env1 f types [] nm' fields caps'
                hm hl ha,
              expandFieldFuel_anon_eq fuel env2 f types [] nm' fields caps'
                (hbase ▸ hm) hl2 ha]
            rw [(expandFold_merge fuel env1 fields _ _).1,
              (expandFold_merge fuel env2 fields _ _).1]
            rw [← hbase]
            exact LevelPerm.merge (LevelPerm.refl _) (ih.2 fields _)
        · have hrec1 : expandsInline env1 f = false := by
            cases hv : expandsInline env1 f with
            | true => exact absurd hv hrec
            | false => rfl
          have hrec2 : expandsInline env2 f = false := by
            rw [← expandsInline_congr hlen h1 h2 hother f]
            exact hrec1
          rw [expandFieldFuel_record_eq fuel env1 f types [] hm hrec1,
            expandFieldFuel_record_eq fuel env2 f types [] (hbase ▸ hm) hrec2]
          exact LevelPerm.refl _
    have hE2a : ∀ (fs : List SField) (types : List Nat),
        LevelPerm (expandFoldFuel (fuel + 1) env1 fs types []).1
          (expandFoldFuel (fuel + 1) env2 fs types []).1 := by
      intro fs
      induction fs with
      | nil => intro types; exact LevelPerm.refl _
      | cons g gs ihg =>
        intro types
        simp only [expandFold_cons_fst]
        exact LevelPerm.merge (hE1 g types) (ihg types)
    exact ⟨hE1, hE2a⟩

end PermutedEnv

end ModelReflect

namespace ModelReflect

theorem countLevel_congr_perm (nameOf : SField → String) {lv1 lv2 : List SField}
    (hp : lv1.Perm lv2) (m : String → Nat) :
    countLevel nameOf m lv1 = countLevel nameOf m lv2 := by
  funext n
  rw [countLevel_apply, countLevel_apply, hp.countP_eq]

theorem selectSpec_LP (nameOf : SField → String) :
    ∀ {A B : List (List SField)}, LevelPerm A B → ∀ counts,
      (selectSpec nameOf counts A).Perm (selectSpec nameOf counts B) := by
  intro A B h
  induction h with
  | nil => intro counts; exact List.Perm.refl _
  | @cons a b A B hab h ih =>
    intro counts
    rw [selectSpec_cons, selectSpec_cons,
      countLevel_congr_perm nameOf hab counts]
    exact (hab.filter _).append (ih _)

theorem selectSpec_countP_of_pos (nameOf : SField → String) (X : String)
    (L : List (List SField)) (counts : String → Nat) (h : 1 ≤ counts X) :
    (selectSpec nameOf counts L).countP (fun g => nameOf g == X) = 0 := by
  rw [List.countP_eq_length_filter, selectSpec_filter_of_pos nameOf X L counts h]
  rfl

theorem countP_filter_le {α : Type} (p q : α → Bool) (l : List α) :
    (l.filter q).countP p ≤ l.countP p := by
  induction l with
  | nil => simp
  | cons a l ih =>
    by_cases hq : q a = true
    · simp only [List.filter_cons, hq, if_true, List.countP_cons]
      by_cases hp : p a = true <;> simp [hp] <;> omega
    · simp only [List.filter_cons, hq, if_false, List.countP_cons,
        Bool.false_eq_true]
      by_cases hp : p a = true <;> simp [hp] <;> omega

theorem selectSpec_countP_le_one (nameOf : SField → String) (X : String) :
    ∀ (L : List (List SField)) (counts : String → Nat),
      (selectSpec nameOf counts L).countP (fun g => nameOf g == X) ≤ 1 := by
  intro L
  induction L with
  | nil => intro counts; simp [selectSpec]
  | cons lv rest ih =>
    intro counts
    by_cases hc : 1 ≤ counts X
    · rw [selectSpec_countP_of_pos nameOf X _ counts hc]
      omega
    · have hc0 : counts X = 0 := by omega
      rw [selectSpec_cons, List.countP_append]
      by_cases h1 : countLevel nameOf counts lv X = 1
      · have hlvc : lv.countP (fun g => nameOf g == X) = 1 := by
          have ha := countLevel_apply nameOf lv counts X
          omega
        have hfle : ((lv.filter (fun f =>
            !(tagGet f.tags "reflect" == "-") &&
              (countLevel nameOf counts lv (nameOf f) == 1))).countP
            (fun g => nameOf g == X)) ≤ 1 := by
          calc _ ≤ lv.countP (fun g => nameOf g == X) := by
                have := countP_filter_le (fun g => nameOf g == X)
                  (fun f => !(tagGet f.tags "reflect" == "-") &&
                    (countLevel nameOf counts lv (nameOf f) == 1)) lv
                exact this
            _ = 1 := hlvc
        have hrest : (selectSpec nameOf (countLevel nameOf counts lv) rest).countP
            (fun g => nameOf g == X) = 0 :=
          selectSpec_countP_of_pos nameOf X rest _ (by omega)
        omega
      · have hfl : ((lv.filter (fun f =>
            !(tagGet f.tags "reflect" == "-") &&
              (countLevel nameOf counts lv (nameOf f) == 1))).countP
            (fun g => nameOf g == X)) = 0 := by
          apply List.countP_eq_zero.mpr
          intro g hg hgX
          have hp := List.of_mem_filter hg
          rw [Bool.and_eq_true] at hp
          obtain ⟨_, hone⟩ := hp
          have hgX' : nameOf g = X := by simpa using hgX
          rw [hgX'] at hone
          exact h1 (by simpa using hone)
        have hrest := ih (countLevel nameOf counts lv)
        omega

theorem count_map_eq_countP (nameOf : SField → String) (n : String) :
    ∀ (r : List SField),
      (r.map nameOf).count n = r.countP (fun g => nameOf g == n) := by
  intro r
  induction r with
  | nil => rfl
  | cons f r ih =>
    simp only [List.map_cons, List.count_cons, List.countP_cons, ih]

theorem names_nodup_selectSpec (nameOf : SField → String)
    (L : List (List SField)) (counts : String → Nat) :
    ((selectSpec nameOf counts L).map nameOf).Nodup := by
  rw [List.nodup_iff_count_le_one]
  intro a
  rw [count_map_eq_countP]
  exact selectSpec_countP_le_one nameOf a L counts

theorem mem_selectSpec_exists (nameOf : SField → String) :
    ∀ (L : List (List SField)) (counts : String → Nat) (g : SField),
      g ∈ selectSpec nameOf counts L → ∃ lv ∈ L, g ∈ lv := by
  intro L
  induction L with
  | nil => intro counts g hg; cases hg
  | cons lv rest ih =>
    intro counts g hg
    rw [selectSpec_cons, List.mem_append] at hg
    cases hg with
    | inl h =>
      exact ⟨lv, List.mem_cons_self lv rest, List.mem_of_mem_filter h⟩
    | inr h =>
      obtain ⟨lv', hlv', hg'⟩ := ih _ g h
      exact ⟨lv', List.mem_cons_of_mem lv hlv', hg'⟩

theorem lookup_mem_pair {env : Env} {i : Nat} {d : TDesc}
    (h : lookupType env i = some d) : ∃ p ∈ env, p.2 = d := by
  unfold lookupType at h
  cases hf : env.find? (fun p => p.1 = i) with
  | none => rw [hf] at h; cases h
  | some p =>
    rw [hf] at h
    refine ⟨p, List.mem_of_find?_eq_some hf, ?_⟩
    simpa using h

theorem mem_mergeLevels {g : SField} :
    ∀ (A B : List (List SField)),
      (∃ lv ∈ mergeLevels A B, g ∈ lv) →
        (∃ lv ∈ A, g ∈ lv) ∨ (∃ lv ∈ B, g ∈ lv) := by
  intro A
  induction A with
  | nil =>
    intro B h
    rw [mergeLevels_nil_left] at h
    exact Or.inr h
  | cons a A ih =>
    intro B h
    cases B with
    | nil =>
      rw [mergeLevels_nil_right] at h
      exact Or.inl h
    | cons b B =>
      rw [mergeLevels_cons] at h
      obtain ⟨lv, hlv, hg⟩ := h
      rw [List.mem_cons] at hlv
      cases hlv with
      | inl he =>
        subst he
        rw [List.mem_append] at hg
        cases hg with
        | inl h' => exact Or.inl ⟨a, List.mem_cons_self a A, h'⟩
        | inr h' => exact Or.inr ⟨b, List.mem_cons_self b B, h'⟩
      | inr hm =>
        cases ih B ⟨lv, hm, hg⟩ with
        | inl h' =>
          obtain ⟨lv', h1', h2'⟩ := h'
          exact Or.inl ⟨lv', List.mem_cons_of_mem a h1', h2'⟩
        | inr h' =>
          obtain ⟨lv', h1', h2'⟩ := h'
          exact Or.inr ⟨lv', List.mem_cons_of_mem b h1', h2'⟩

theorem mem_replicate_levels {g : SField} {n : Nat} :
    ¬ (∃ lv ∈ List.replicate n ([] : List SField), g ∈ lv) := by
  rintro ⟨lv, hlv, hg⟩
  rw [List.eq_of_mem_replicate hlv] at hg
  cases hg

theorem mem_expand_levels (env : Env) :
    ∀ (fuel : Nat),
      (∀ (f : SField) (types : List Nat) (g : SField),
        (∃ lv ∈ (expandFieldFuel fuel env f types []).1, g ∈ lv) →
          g = f ∨ ∃ p ∈ env, g ∈ structFieldsOf p.2.body) ∧
      (∀ (fs : List SField) (types : List Nat) (g : SField),
        (∃ lv ∈ (expandFoldFuel fuel env fs types []).1, g ∈ lv) →
          (∃ f ∈ fs, g = f) ∨ ∃ p ∈ env, g ∈ structFieldsOf p.2.body) := by
  intro fuel
  induction fuel with
  | zero =>
    constructor
    · intro f types g hg
      obtain ⟨lv, hlv, _⟩ := hg
      cases hlv
    · intro fs types g hg
      rw [expandFoldFuel_zero] at hg
      obtain ⟨lv, hlv, _⟩ := hg
      cases hlv
  | succ fuel ih =>
    have hE1 : ∀ (f : SField) (types : List Nat) (g : SField),
        (∃ lv ∈ (expandFieldFuel (fuel + 1) env f types []).1, g ∈ lv) →
          g = f ∨ ∃ p ∈ env, g ∈ structFieldsOf p.2.body := by
      intro f types g hg
      by_cases hm : baseType env f.typeId ∈ types
      · rw [expandFieldFuel_loop_eq fuel env f types [] hm] at hg
        simp only [ensureLevels_nil] at hg
        exact absurd hg mem_replicate_levels
      · by_cases hrec : expandsInline env f = true
        · obtain ⟨nm', fields, caps', hl, ha⟩ := expandsInline_spec hrec
          rw [expandFieldFuel_anon_eq fuel env f types [] nm' fields caps'
            hm hl ha] at hg
          rw [(expandFold_merge fuel env fields _ _).1, ensureLevels_nil] at hg
          cases mem_mergeLevels _ _ hg with
          | inl h => exact absurd h mem_replicate_levels
          | inr h =>
            cases (ih.2 fields _ g h) with
            | inl h' =>
              obtain ⟨f', hf', rfl⟩ := h'
              obtain ⟨p, hp, hpd⟩ := lookup_mem_pair hl
              refine Or.inr ⟨p, hp, ?_⟩
              rw [hpd]
              exact hf'
            | inr h' => exact Or.inr h'
        · have hrec' : expandsInline env f = false := by
            cases hv : expandsInline env f with
            | true => exact absurd hv hrec
            | false => rfl
          rw [expandFieldFuel_record_eq fuel env f types [] hm hrec'] at hg
          simp only [ensureLevels_nil, appendAt_replicate] at hg
          obtain ⟨lv, hlv, hgl⟩ := hg
          rw [List.mem_append] at hlv
          cases hlv with
          | inl h =>
            rw [List.eq_of_mem_replicate h] at hgl
            cases hgl
          | inr h =>
            rw [List.mem_singleton] at h
            subst h
            rw [List.mem_singleton] at hgl
            exact Or.inl hgl
    refine ⟨hE1, ?_⟩
    intro fs
    induction fs with
    | nil =>
      intro types g hg
      obtain ⟨lv, hlv, _⟩ := hg
      cases hlv
    | cons f fs ihf =>
      intro types g hg
      rw [expandFold_cons_fst] at hg
      cases mem_mergeLevels _ _ hg with
      | inl h =>
        cases hE1 f types g h with
        | inl h' => exact Or.inl ⟨f, List.mem_cons_self f fs, h'⟩
        | inr h' => exact Or.inr h'
      | inr h =>
        cases ihf types g h with
        | inl h' =>
          obtain ⟨f', hf', he⟩ := h'
          exact Or.inl ⟨f', List.mem_cons_of_mem f hf', he⟩
        | inr h' => exact Or.inr h'

end ModelReflect

namespace ModelReflect

theorem charListLe_cons (x y : Char) (xs ys : List Char) :
    charListLe (x :: xs) (y :: ys) =
      if x.val < y.val then true
      else if y.val < x.val then false
      else charListLe xs ys := rfl

theorem charListLe_total : ∀ (a b : List Char),
    charListLe a b = true ∨ charListLe b a = true := by
  intro a
  induction a with
  | nil => intro b; exact Or.inl rfl
  | cons x xs ih =>
    intro b
    cases b with
    | nil => exact Or.inr rfl
    | cons y ys =>
      rw [charListLe_cons, charListLe_cons]
      by_cases h1 : x.val < y.val
      · exact Or.inl (by rw [if_pos h1])
      · by_cases h2 : y.val < x.val
        · exact Or.inr (by rw [if_pos h2])
        · simp only [if_neg h1, if_neg h2]
          exact ih ys

theorem charListLe_antisymm : ∀ (a b : List Char),
    charListLe a b = true → charListLe b a = true → a = b := by
  intro a
  induction a with
  | nil =>
    intro b h1 h2
    cases b with
    | nil => rfl
    | cons y ys => exact Bool.noConfusion h2
  | cons x xs ih =>
    intro b h1 h2
    cases b with
    | nil => exact Bool.noConfusion h1
    | cons y ys =>
      rw [charListLe_cons] at h1 h2
      by_cases hxy : x.val < y.val
      · have hyx : ¬ y.val < x.val := by
          have h' : x.val.toNat < y.val.toNat := hxy
          intro hc
          have h'' : y.val.toNat < x.val.toNat := hc
          omega
        rw [if_neg hyx, if_pos hxy] at h2
        exact Bool.noConfusion h2
      · by_cases hyx : y.val < x.val
        · rw [if_neg hxy, if_pos hyx] at h1
          exact Bool.noConfusion h1
        · rw [if_neg hxy, if_neg hyx] at h1
          rw [if_neg hyx, if_neg hxy] at h2
          have hv : x = y := by
            have hxn : ¬ x.val.toNat < y.val.toNat := hxy
            have hyn : ¬ y.val.toNat < x.val.toNat := hyx
            have hnn : x.val.toNat = y.val.toNat := by omega
            exact Char.ext (UInt32.toNat.inj hnn)
          rw [hv, ih ys h1 h2]

theorem charListLe_trans : ∀ (a b c : List Char),
    charListLe a b = true → charListLe b c = true → charListLe a c = true := by
  intro a
  induction a with
  | nil => intro b c _ _; rfl
  | cons x xs ih =>
    intro b c h1 h2
    cases b with
    | nil => exact Bool.noConfusion h1
    | cons y ys =>
      cases c with
      | nil => exact Bool.noConfusion h2
      | cons z zs =>
        rw [charListLe_cons] at h1 h2
        rw [charListLe_cons]
        have hle1 : x.val.toNat ≤ y.val.toNat := by
          by_cases hxy : x.val < y.val
          · have h' : x.val.toNat < y.val.toNat := hxy
            omega
          · by_cases hyx : y.val < x.val
            · rw [if_neg hxy, if_pos hyx] at h1
              exact Bool.noConfusion h1
            · have hA : ¬ x.val.toNat < y.val.toNat := hxy
              have hB : ¬ y.val.toNat < x.val.toNat := hyx
              omega
        have hle2 : y.val.toNat ≤ z.val.toNat := by
          by_cases hyz : y.val < z.val
          · have h' : y.val.toNat < z.val.toNat := hyz
            omega
          · by_cases hzy : z.val < y.val
            · rw [if_neg hyz, if_pos hzy] at h2
              exact Bool.noConfusion h2
            · have hA : ¬ y.val.toNat < z.val.toNat := hyz
              have hB : ¬ z.val.toNat < y.val.toNat := hzy
              omega
        by_cases hxz : x.val < z.val
        · rw [if_pos hxz]
        · have hxz' : ¬ x.val.toNat < z.val.toNat := hxz
          have heqxz : x.val.toNat = z.val.toNat := by omega
          have hzx : ¬ z.val.toNat < x.val.toNat := by omega
          have hzx' : ¬ z.val < x.val := hzx
          rw [if_neg hxz, if_neg hzx']
          have heqxy : x.val.toNat = y.val.toNat := by omega
          have heqyz : y.val.toNat = z.val.toNat := by omega
          have ht1 : charListLe xs ys = true := by
            have hn1 : ¬ x.val < y.val := by
              intro hc
              have h' : x.val.toNat < y.val.toNat := hc
              omega
            have hn2 : ¬ y.val < x.val := by
              intro hc
              have h' : y.val.toNat < x.val.toNat := hc
              omega
            rw [if_neg hn1, if_neg hn2] at h1
            exact h1
          have ht2 : charListLe ys zs = true := by
            have hn1 : ¬ y.val < z.val := by
              intro hc
              have h' : y.val.toNat < z.val.toNat := hc
              omega
            have hn2 : ¬ z.val < y.val := by
              intro hc
              have h' : z.val.toNat < y.val.toNat := hc
              omega
            rw [if_neg hn1, if_neg hn2] at h2
            exact h2
          exact ih ys zs ht1 ht2

theorem string_eq_of_toList {a b : String} (h : a.toList = b.toList) : a = b := by
  cases a with
  | mk d1 =>
    cases b with
    | mk d2 =>
      have h' : d1 = d2 := by simpa [String.toList] using h
      rw [h']

theorem strLe_total (a b : String) : strLe a b = true ∨ strLe b a = true :=
  charListLe_total a.toList b.toList

theorem strLe_trans {a b c : String} (h1 : strLe a b = true)
    (h2 : strLe b c = true) : strLe a c = true :=
  charListLe_trans a.toList b.toList c.toList h1 h2

theorem strLe_antisymm {a b : String} (h1 : strLe a b = true)
    (h2 : strLe b a = true) : a = b :=
  string_eq_of_toList (charListLe_antisymm a.toList b.toList h1 h2)

theorem sortStrings_sorted (l : List String) :
    List.Sorted (fun a b => strLe a b = true) (sortStrings l) := by
  haveI : IsTotal String (fun a b => strLe a b = true) := ⟨strLe_total⟩
  haveI : IsTrans String (fun a b => strLe a b = true) :=
    ⟨fun _ _ _ => strLe_trans⟩
  exact List.sorted_insertionSort _ l

theorem sortStrings_eq_of_perm {l1 l2 : List String} (h : l1.Perm l2) :
    sortStrings l1 = sortStrings l2 := by
  haveI : IsAntisymm String (fun a b => strLe a b = true) :=
    ⟨fun _ _ => strLe_antisymm⟩
  exact List.eq_of_perm_of_sorted
    ((sortStrings_perm l1).trans (h.trans (sortStrings_perm l2).symm))
    (sortStrings_sorted l1) (sortStrings_sorted l2)

end ModelReflect

namespace ModelReflect

theorem toList_dot_append (a : String) : ("." ++ a).toList = '.' :: a.toList := by
  show ("." ++ a).data = '.' :: a.data
  rw [String.data_append]
  rfl

theorem fieldKey_inj {f g : SField} (hf : dotFree f.name) (hg : dotFree g.name)
    (h : fieldKey f = fieldKey g) : f.name = g.name := by
  unfold fieldKey at h
  by_cases ha : f.anonymous = true <;> by_cases hb : g.anonymous = true
  · rw [if_pos ha, if_pos hb] at h
    have h' := congrArg String.toList h
    rw [toList_dot_append, toList_dot_append] at h'
    exact string_eq_of_toList (List.cons.inj h').2
  · rw [if_pos ha, if_neg hb] at h
    exfalso
    apply hg
    rw [← h, toList_dot_append]
    rfl
  · rw [if_neg ha, if_pos hb] at h
    exfalso
    apply hf
    rw [h, toList_dot_append]
    rfl
  · rw [if_neg ha, if_neg hb] at h
    exact h

theorem buildFieldMap_fold_char (env : Env) :
    ∀ (fs : List SField) (keys0 : List String) (m0 : String → Option SField),
      (∀ f ∈ fs.filter (fun f => f.exported &&
        isConcrete env (baseType env f.typeId)), m0 (fieldKey f) = none) →
      ((fs.filter (fun f => f.exported &&
        isConcrete env (baseType env f.typeId))).map fieldKey).Nodup →
      (fs.foldl (buildFieldStep env) (keys0, m0)).1 =
        keys0 ++ (fs.filter (fun f => f.exported &&
          isConcrete env (baseType env f.typeId))).map fieldKey ∧
      (∀ f ∈ fs.filter (fun f => f.exported &&
          isConcrete env (baseType env f.typeId)),
        (fs.foldl (buildFieldStep env) (keys0, m0)).2 (fieldKey f) = some f) ∧
      (∀ k, k ∉ (fs.filter (fun f => f.exported &&
          isConcrete env (baseType env f.typeId))).map fieldKey →
        (fs.foldl (buildFieldStep env) (keys0, m0)).2 k = m0 k) := by
  intro fs
  induction fs with
  | nil =>
    intro keys0 m0 _ _
    exact ⟨by simp, by simp, fun k _ => rfl⟩
  | cons f fs ih =>
    intro keys0 m0 hfresh hnodup
    by_cases hvis : (f.exported && isConcrete env (baseType env f.typeId)) = true
    · have hexp : f.exported = true := by
        rw [Bool.and_eq_true] at hvis
        exact hvis.1
      have hconc : isConcrete env (baseType env f.typeId) = true := by
        rw [Bool.and_eq_true] at hvis
        exact hvis.2
      have hfilter : (f :: fs).filter (fun f => f.exported &&
          isConcrete env (baseType env f.typeId)) =
          f :: fs.filter (fun f => f.exported &&
            isConcrete env (baseType env f.typeId)) := by
        rw [List.filter_cons, if_pos hvis]
      have hm0f : m0 (fieldKey f) = none := by
        apply hfresh
        rw [hfilter]
        exact List.mem_cons_self _ _
      have hstep : buildFieldStep env (keys0, m0) f =
          (keys0 ++ [fieldKey f],
           fun s => if s = fieldKey f then some f else m0 s) := by
        unfold buildFieldStep
        rw [if_neg (by rw [hexp]; exact fun hc => Bool.noConfusion hc),
          if_neg (by rw [hconc]; exact fun hc => Bool.noConfusion hc)]
        simp only [hm0f, Option.isSome_none, Bool.false_eq_true, if_false]
      rw [hfilter] at hnodup
      rw [List.map_cons, List.nodup_cons] at hnodup
      obtain ⟨hkf, hnodup'⟩ := hnodup
      have hfresh' : ∀ g ∈ fs.filter (fun f => f.exported &&
          isConcrete env (baseType env f.typeId)),
          (fun s => if s = fieldKey f then some f else m0 s) (fieldKey g) = none := by
        intro g hg
        have hne : fieldKey g ≠ fieldKey f := by
          intro he
          exact hkf (he ▸ List.mem_map_of_mem fieldKey hg)
        simp only [if_neg hne]
        apply hfresh
        rw [hfilter]
        exact List.mem_cons_of_mem f hg
      obtain ⟨ihk, ihm, iho⟩ := ih (keys0 ++ [fieldKey f])
        (fun s => if s = fieldKey f then some f else m0 s) hfresh' hnodup'
      simp only [List.foldl_cons, hstep]
      refine ⟨?_, ?_, ?_⟩
      · rw [ihk, hfilter, List.map_cons, List.append_assoc]
        rfl
      · intro g hg
        rw [hfilter, List.mem_cons] at hg
        cases hg with
        | inl he =>
          subst he
          rw [iho (fieldKey g) hkf]
          simp
        | inr hm =>
          exact ihm g hm
      · intro k hk
        rw [hfilter, List.map_cons, List.mem_cons] at hk
        push_neg at hk
        rw [iho k hk.2]
        simp only [if_neg hk.1]
    · have hfilter : (f :: fs).filter (fun f => f.exported &&
          isConcrete env (baseType env f.typeId)) =
          fs.filter (fun f => f.exported &&
            isConcrete env (baseType env f.typeId)) := by
        rw [List.filter_cons, if_neg hvis]
      have hstep : buildFieldStep env (keys0, m0) f = (keys0, m0) := by
        unfold buildFieldStep
        rw [Bool.and_eq_true] at hvis
        push_neg at hvis
        by_cases he : f.exported = true
        · have hc := hvis he
          rw [if_neg (by rw [he]; exact fun hc' => Bool.noConfusion hc')]
          rw [if_pos (by
            cases hv : isConcrete env (baseType env f.typeId) with
            | true => exact absurd hv hc
            | false => rfl)]
        · rw [if_pos (by
            cases hv : f.exported with
            | true => exact absurd hv he
            | false => rfl)]
      rw [hfilter] at hnodup ⊢
      simp only [List.foldl_cons, hstep]
      exact ih keys0 m0 (by rw [hfilter] at hfresh; exact hfresh) hnodup

theorem buildFieldMap_char (env : Env) (fs : List SField)
    (hnodup : ((fs.filter (fun f => f.exported &&
      isConcrete env (baseType env f.typeId))).map fieldKey).Nodup) :
    (buildFieldMap env fs).1 = (fs.filter (fun f => f.exported &&
      isConcrete env (baseType env f.typeId))).map fieldKey ∧
    (∀ f ∈ fs.filter (fun f => f.exported &&
        isConcrete env (baseType env f.typeId)),
      (buildFieldMap env fs).2 (fieldKey f) = some f) := by
  obtain ⟨h1, h2, _⟩ := buildFieldMap_fold_char env fs [] (fun _ => none)
    (fun _ _ => rfl) hnodup
  refine ⟨?_, h2⟩
  show (List.foldl (buildFieldStep env) ([], fun _ => none) fs).1 = _
  rw [h1]
  rfl

end ModelReflect

namespace ModelReflect

theorem nodup_map_fieldKey_of :
    ∀ (l : List SField), ((l.map (fun f => f.name)).Nodup) →
      (∀ f ∈ l, dotFree f.name) → (l.map fieldKey).Nodup := by
  intro l
  induction l with
  | nil => intro _ _; exact List.nodup_nil
  | cons f l ih =>
    intro hnames hdot
    rw [List.map_cons, List.nodup_cons] at hnames ⊢
    obtain ⟨hfn, hnames'⟩ := hnames
    refine ⟨?_, ih hnames' (fun g hg => hdot g (List.mem_cons_of_mem f hg))⟩
    intro hmem
    obtain ⟨g, hg, hkey⟩ := List.mem_map.mp hmem
    have hname := fieldKey_inj (hdot g (List.mem_cons_of_mem f hg))
      (hdot f (List.mem_cons_self f l)) hkey
    exact hfn (hname ▸ List.mem_map_of_mem (fun f => f.name) hg)

theorem structFields_fst_eq_selectSpec (env : Env) (b : Nat) (nm' : String)
    (flds : List SField) (caps' : List String)
    (hl : lookupType env b = some ⟨nm', TBody.strct flds caps'⟩) :
    (structFields env b).1 =
      selectSpec (fun f => f.name) (fun _ => 0)
        (expandFoldFuel (env.length + 1) env flds [] []).1 := by
  rw [structFields_eq env b nm' flds caps'
    (expandStruct env flds).1 (expandStruct env flds).2 hl rfl]
  simp only
  rw [selectLevels_fst]
  rfl

theorem survivors_names_nodup (env : Env) (b : Nat) (nm' : String)
    (flds : List SField) (caps' : List String)
    (hl : lookupType env b = some ⟨nm', TBody.strct flds caps'⟩) :
    ((structFields env b).1.map (fun f => f.name)).Nodup := by
  rw [structFields_fst_eq_selectSpec env b nm' flds caps' hl]
  exact names_nodup_selectSpec _ _ _

theorem survivors_dotFree (env : Env) (b : Nat) (nm' : String)
    (flds : List SField) (caps' : List String)
    (hl : lookupType env b = some ⟨nm', TBody.strct flds caps'⟩)
    (hok : envNamesOK env) :
    ∀ g ∈ (structFields env b).1, dotFree g.name := by
  intro g hg
  rw [structFields_fst_eq_selectSpec env b nm' flds caps' hl] at hg
  obtain ⟨lv, hlv, hglv⟩ := mem_selectSpec_exists _ _ _ g hg
  have hmem := (mem_expand_levels env (env.length + 1)).2 flds [] g ⟨lv, hlv, hglv⟩
  cases hmem with
  | inl h' =>
    obtain ⟨f', hf', hgf⟩ := h'
    obtain ⟨p, hp, hpd⟩ := lookup_mem_pair hl
    rw [hgf]
    refine hok p hp f' ?_
    rw [hpd]
    exact hf'
  | inr h' =>
    obtain ⟨p, hp, hgp⟩ := h'
    exact hok p hp g hgp

end ModelReflect

namespace ModelReflect

theorem ttsStep_caps_fst (env : Env)
    (rec : Option Nat → List Nat → String × List String) (i0 : Nat)
    (types : List Nat) (nm' : String) (flds : List SField) (caps' : List String)
    (hc : ¬ isConcrete env (baseType env i0) = false)
    (hm : baseType env i0 ∉ types)
    (hl : lookupType env (baseType env i0) = some ⟨nm', TBody.strct flds caps'⟩)
    (hcaps : sortStrings caps' ≠ []) :
    ttsStep env rec (some i0) types =
      ("(" ++ String.intercalate "," (sortStrings caps') ++ ")", []) := by
  simp [ttsStep, hc, hm, hl, hcaps]

theorem ttsStep_struct_fst (env : Env)
    (rec : Option Nat → List Nat → String × List String) (i0 : Nat)
    (types : List Nat) (nm' : String) (flds : List SField) (caps' : List String)
    (hc : ¬ isConcrete env (baseType env i0) = false)
    (hm : baseType env i0 ∉ types)
    (hl : lookupType env (baseType env i0) = some ⟨nm', TBody.strct flds caps'⟩)
    (hcaps : sortStrings caps' = []) :
    (ttsStep env rec (some i0) types).1 =
      "\x7b " ++ String.intercalate ", "
        ((sortStrings (buildFieldMap env
            (structFields env (baseType env i0)).1).1).map
          (fun k => (renderOne (fun s => rec s (types ++ [baseType env i0]))
            (buildFieldMap env
              (structFields env (baseType env i0)).1).2 k).1)) ++ " \x7d" := by
  simp [ttsStep, hc, hm, hl, hcaps, List.map_map]
  rfl

end ModelReflect

namespace ModelReflect

theorem struct_render_congr {env1 env2 : Env} {t : Nat} {nm : String}
    {fs1 fs2 : List SField} {caps : List String}
    (hlen : env1.length = env2.length)
    (h1 : lookupType env1 t = some ⟨nm, TBody.strct fs1 caps⟩)
    (h2 : lookupType env2 t = some ⟨nm, TBody.strct fs2 caps⟩)
    (hperm : fs1.Perm fs2)
    (hother : ∀ s, s ≠ t → lookupType env1 s = lookupType env2 s)
    (hok1 : envNamesOK env1) (hok2 : envNamesOK env2)
    (b : Nat) (nm' : String) (flds1 flds2 : List SField)
    (caps' : List String)
    (hl1 : lookupType env1 b = some ⟨nm', TBody.strct flds1 caps'⟩)
    (hl2 : lookupType env2 b = some ⟨nm', TBody.strct flds2 caps'⟩)
    (hfperm : flds1.Perm flds2)
    (rec1 rec2 : Option Nat → List Nat → String × List String)
    (hrec : ∀ s ty, (rec1 s ty).1 = (rec2 s ty).1)
    (types' : List Nat) :
    (sortStrings (buildFieldMap env1 (structFields env1 b).1).1).map
      (fun k => (renderOne (fun s => rec1 s types')
        (buildFieldMap env1 (structFields env1 b).1).2 k).1) =
    (sortStrings (buildFieldMap env2 (structFields env2 b).1).1).map
      (fun k => (renderOne (fun s => rec2 s types')
        (buildFieldMap env2 (structFields env2 b).1).2 k).1) := by
  have hr : (structFields env1 b).1.Perm (structFields env2 b).1 := by
    rw [structFields_fst_eq_selectSpec env1 b nm' flds1 caps' hl1,
        structFields_fst_eq_selectSpec env2 b nm' flds2 caps' hl2]
    refine selectSpec_LP _ ?_ _
    rw [← hlen]
    exact ((contrib_LP hlen h1 h2 hperm hother (env1.length + 1)).2 flds1 []).trans
      (foldContrib_perm_one_env env2 (env1.length + 1) hfperm [])
  have hvis : (fun f : SField => f.exported &&
        isConcrete env1 (baseType env1 f.typeId)) =
      (fun f : SField => f.exported &&
        isConcrete env2 (baseType env2 f.typeId)) := by
    funext f
    rw [baseType_congr hlen h1 h2 hother f.typeId,
        isConcrete_congr h1 h2 hother]
  have hd1 : ∀ g ∈ (structFields env1 b).1, dotFree g.name :=
    survivors_dotFree env1 b nm' flds1 caps' hl1 hok1
  have hd2 : ∀ g ∈ (structFields env2 b).1, dotFree g.name :=
    survivors_dotFree env2 b nm' flds2 caps' hl2 hok2
  have hn1 := survivors_names_nodup env1 b nm' flds1 caps' hl1
  have hn2 := survivors_names_nodup env2 b nm' flds2 caps' hl2
  have hk1 : (((structFields env1 b).1.filter (fun f => f.exported &&
      isConcrete env1 (baseType env1 f.typeId))).map fieldKey).Nodup := by
    apply nodup_map_fieldKey_of
    · exact List.Nodup.sublist
        ((List.filter_sublist _).map (fun f : SField => f.name)) hn1
    · intro f hf
      exact hd1 f (List.mem_of_mem_filter hf)
  have hk2 : (((structFields env2 b).1.filter (fun f => f.exported &&
      isConcrete env2 (baseType env2 f.typeId))).map fieldKey).Nodup := by
    apply nodup_map_fieldKey_of
    · exact List.Nodup.sublist
        ((List.filter_sublist _).map (fun f : SField => f.name)) hn2
    · intro f hf
      exact hd2 f (List.mem_of_mem_filter hf)
  have hchar1 := buildFieldMap_char env1 (structFields env1 b).1 hk1
  have hchar2 := buildFieldMap_char env2 (structFields env2 b).1 hk2
  have hfilters : ((structFields env1 b).1.filter (fun f => f.exported &&
      isConcrete env1 (baseType env1 f.typeId))).Perm
      ((structFields env2 b).1.filter (fun f => f.exported &&
      isConcrete env2 (baseType env2 f.typeId))) := by
    rw [← hvis]
    exact hr.filter _
  have hkeys : sortStrings (buildFieldMap env1 (structFields env1 b).1).1 =
      sortStrings (buildFieldMap env2 (structFields env2 b).1).1 := by
    rw [hchar1.1, hchar2.1]
    exact sortStrings_eq_of_perm (hfilters.map _)
  rw [← hkeys]
  apply List.map_congr_left
  intro k hk
  have hk' : k ∈ (buildFieldMap env1 (structFields env1 b).1).1 :=
    (sortStrings_perm _).subset hk
  rw [hchar1.1] at hk'
  obtain ⟨f, hf, hfk⟩ := List.mem_map.mp hk'
  have hmm1 : (buildFieldMap env1 (structFields env1 b).1).2 k = some f := by
    rw [← hfk]
    exact hchar1.2 f hf
  have hf2 : f ∈ (structFields env2 b).1.filter (fun f => f.exported &&
      isConcrete env2 (baseType env2 f.typeId)) :=
    hfilters.mem_iff.mp hf
  have hmm2 : (buildFieldMap env2 (structFields env2 b).1).2 k = some f := by
    rw [← hfk]
    exact hchar2.2 f hf2
  by_cases htg : tagGet f.tags "reflect" = ""
  · simp [renderOne, hmm1, hmm2, htg, hrec]
  · simp [renderOne, hmm1, hmm2, htg]

end ModelReflect

namespace ModelReflect

theorem tts_fst_congr {env1 env2 : Env} {t : Nat} {nm : String}
    {fs1 fs2 : List SField} {caps : List String}
    (hlen : env1.length = env2.length)
    (h1 : lookupType env1 t = some ⟨nm, TBody.strct fs1 caps⟩)
    (h2 : lookupType env2 t = some ⟨nm, TBody.strct fs2 caps⟩)
    (hperm : fs1.Perm fs2)
    (hother : ∀ s, s ≠ t → lookupType env1 s = lookupType env2 s)
    (hok1 : envNamesOK env1) (hok2 : envNamesOK env2) :
    ∀ (fuel : Nat) (s : Option Nat) (types : List Nat),
      (typeToStringFuel fuel env1 s types).1 =
        (typeToStringFuel fuel env2 s types).1 := by
  intro fuel
  induction fuel with
  | zero => intro s types; rfl
  | succ fuel ih =>
    intro s types
    cases s with
    | none => rfl
    | some i0 =>
      have hbase : baseType env1 i0 = baseType env2 i0 :=
        baseType_congr hlen h1 h2 hother i0
      have hconc : isConcrete env1 (baseType env1 i0) =
          isConcrete env2 (baseType env2 i0) := by
        rw [← hbase, isConcrete_congr h1 h2 hother]
      show (ttsStep env1 (fun s ty => typeToStringFuel fuel env1 s ty)
          (some i0) types).1 =
        (ttsStep env2 (fun s ty => typeToStringFuel fuel env2 s ty)
          (some i0) types).1
      by_cases hc : isConcrete env1 (baseType env1 i0) = false
      · have hc2 : isConcrete env2 (baseType env2 i0) = false := by
          rw [← hconc]
          exact hc
        simp [ttsStep, hc, hc2]
      · have hc2 : ¬ isConcrete env2 (baseType env2 i0) = false := by
          rw [← hconc]
          exact hc
        by_cases hmem : baseType env1 i0 ∈ types
        · have hmem2 : baseType env2 i0 ∈ types := by
            rw [← hbase]
            exact hmem
          simp [ttsStep, hc, hc2, hmem, hmem2]
        · have hmem2 : ¬ baseType env2 i0 ∈ types := by
            rw [← hbase]
            exact hmem
          by_cases hit : baseType env1 i0 = t
          · have hlk1 : lookupType env1 (baseType env1 i0) =
                some ⟨nm, TBody.strct fs1 caps⟩ := by
              rw [hit]
              exact h1
            have hlk2 : lookupType env2 (baseType env2 i0) =
                some ⟨nm, TBody.strct fs2 caps⟩ := by
              rw [← hbase, hit]
              exact h2
            by_cases hcs : sortStrings caps = []
            · rw [ttsStep_struct_fst env1 _ i0 types nm fs1 caps hc hmem hlk1 hcs,
                  ttsStep_struct_fst env2 _ i0 types nm fs2 caps hc2 hmem2 hlk2 hcs,
                  ← hbase]
              exact congrArg
                (fun l => "\x7b " ++ String.intercalate ", " l ++ " \x7d")
                (struct_render_congr hlen h1 h2 hperm hother hok1 hok2
                  (baseType env1 i0) nm fs1 fs2 caps hlk1
                  (by rw [hbase]; exact hlk2) hperm _ _
                  (fun s ty => ih s ty) (types ++ [baseType env1 i0]))
            · rw [ttsStep_caps_fst env1 _ i0 types nm fs1 caps hc hmem hlk1 hcs,
                  ttsStep_caps_fst env2 _ i0 types nm fs2 caps hc2 hmem2 hlk2 hcs]
          · have heq : lookupType env1 (baseType env1 i0) =
                lookupType env2 (baseType env2 i0) := by
              rw [← hbase]
              exact hother _ hit
            cases hlk : lookupType env1 (baseType env1 i0) with
            | none =>
              exfalso
              apply hc
              show isConcrete env1 (baseType env1 i0) = false
              unfold isConcrete
              rw [hlk]
            | some d =>
              have hlk2 : lookupType env2 (baseType env2 i0) = some d := by
                rw [← heq]
                exact hlk
              obtain ⟨nm', body⟩ := d
              have hc2b : ¬ isConcrete env2 (baseType env1 i0) = false := by
                rw [hbase]
                exact hc2
              have hlk2b : lookupType env2 (baseType env1 i0) =
                  some ⟨nm', body⟩ := by
                rw [hbase]
                exact hlk2
              cases body with
              | strct flds caps' =>
                by_cases hcs : sortStrings caps' = []
                · rw [ttsStep_struct_fst env1 _ i0 types nm' flds caps'
                        hc hmem hlk hcs,
                      ttsStep_struct_fst env2 _ i0 types nm' flds caps'
                        hc2 hmem2 hlk2 hcs,
                      ← hbase]
                  exact congrArg
                    (fun l => "\x7b " ++ String.intercalate ", " l ++ " \x7d")
                    (struct_render_congr hlen h1 h2 hperm hother hok1 hok2
                      (baseType env1 i0) nm' flds flds caps' hlk
                      (by rw [hbase]; exact hlk2) (List.Perm.refl _) _ _
                      (fun s ty => ih s ty) (types ++ [baseType env1 i0]))
                · rw [ttsStep_caps_fst env1 _ i0 types nm' flds caps'
                        hc hmem hlk hcs,
                      ttsStep_caps_fst env2 _ i0 types nm' flds caps'
                        hc2 hmem2 hlk2 hcs]
              | prim k =>
                simp [ttsStep, hc, hmem, hlk, ← hbase, hc2b, hlk2b]
              | ptr e =>
                simp [ttsStep, hc, hmem, hlk, ← hbase, hc2b, hlk2b]
              | interf =>
                simp [ttsStep, hc, hmem, hlk, ← hbase, hc2b, hlk2b]
              | func =>
                simp [ttsStep, hc, hmem, hlk, ← hbase, hc2b, hlk2b]
              | chan =>
                simp [ttsStep, hc, hmem, hlk, ← hbase, hc2b, hlk2b]
              | unsafePointer =>
                simp [ttsStep, hc, hmem, hlk, ← hbase, hc2b, hlk2b]
              | slice e =>
                simp [ttsStep, hc, hmem, hlk, ← hbase, hc2b, hlk2b, ih]
              | arr n e =>
                simp [ttsStep, hc, hmem, hlk, ← hbase, hc2b, hlk2b, ih]
              | tmap k e =>
                simp [ttsStep, hc, hmem, hlk, ← hbase, hc2b, hlk2b, ih]

end ModelReflect

namespace ModelReflect

/-- **C7** (field-order independence): for two descriptor graphs of equal
size that agree everywhere except that the struct node `t` declares its
fields in permuted order (same name, same capability set, and every struct
node's declared field names are ordinary dot-free Go identifiers), the
signature built for `t` is identical — and in fact `typeToString` agrees on
every start node, every ancestry path and every recursion budget: surviving
field keys are sorted lexicographically before rendering, so declaration
order never influences the signature. -/
theorem C7_field_order_irrelevant {env1 env2 : Env} {t : Nat} {nm : String}
    {fs1 fs2 : List SField} {caps : List String}
    (hlen : env1.length = env2.length)
    (h1 : lookupType env1 t = some ⟨nm, TBody.strct fs1 caps⟩)
    (h2 : lookupType env2 t = some ⟨nm, TBody.strct fs2 caps⟩)
    (hperm : fs1.Perm fs2)
    (hother : ∀ s, s ≠ t → lookupType env1 s = lookupType env2 s)
    (hok1 : envNamesOK env1) (hok2 : envNamesOK env2) :
    (typeToString env1 (some t)).1 = (typeToString env2 (some t)).1 ∧
    ∀ (fuel : Nat) (s : Option Nat) (types : List Nat),
      (typeToStringFuel fuel env1 s types).1 =
        (typeToStringFuel fuel env2 s types).1 := by
  constructor
  · show (typeToStringFuel (env1.length + 1) env1 (some t) []).1 =
      (typeToStringFuel (env2.length + 1) env2 (some t) []).1
    rw [← hlen]
    exact tts_fst_congr hlen h1 h2 hperm hother hok1 hok2
      (env1.length + 1) (some t) []
  · exact tts_fst_congr hlen h1 h2 hperm hother hok1 hok2

/-- **C7** witness: `envOrder2` permutes the declared field order of the
three-field struct `T` of `envOrder1`; the built signatures coincide. -/
theorem C7_witness :
    (typeToString envOrder1 (some 0)).1 = (typeToString envOrder2 (some 0)).1 ∧
    (typeToString envOrder1 (some 0)).1 =
      "{ Data:int, Lolipop:float32, Stuff:int }" := by
  have h1 : lookupType envOrder1 0 = some ⟨"T", TBody.strct
      [⟨"Lolipop", 1, true, false, []⟩, ⟨"Stuff", 2, true, false, []⟩,
       ⟨"Data", 2, true, false, []⟩] []⟩ := rfl
  have h2 : lookupType envOrder2 0 = some ⟨"T", TBody.strct
      [⟨"Data", 2, true, false, []⟩, ⟨"Lolipop", 1, true, false, []⟩,
       ⟨"Stuff", 2, true, false, []⟩] []⟩ := rfl
  constructor
  · exact (C7_field_order_irrelevant (by decide) h1 h2
      (by decide)
      (fun s hs => by
        match s, hs with
        | 1, _ => rfl
        | 2, _ => rfl
        | (n+3), _ => rfl)
      (by unfold envNamesOK dotFree; decide)
      (by unfold envNamesOK dotFree; decide)).1
  · rfl

end ModelReflect

namespace ModelReflect

/-! ### The pointer-unwrap loop: completion, divergence, and the bound on
a minimally completing budget (claim C3) -/

theorem baseTypeO_mono (env : Env) :
    ∀ (f1 : Nat) {f2 i b : Nat}, f1 ≤ f2 → baseTypeO env f1 i = some b →
      baseTypeO env f2 i = some b := by
  intro f1
  induction f1 with
  | zero =>
    intro f2 i b _ h
    exact absurd h (by simp [baseTypeO])
  | succ f ih =>
    intro f2 i b hle h
    cases f2 with
    | zero => omega
    | succ f2 =>
      simp only [baseTypeO] at h ⊢
      cases hl : lookupType env i with
      | none =>
        rw [hl] at h
        exact h
      | some d =>
        obtain ⟨nm2, body⟩ := d
        rw [hl] at h
        cases body with
        | ptr e => exact ih (Nat.le_of_succ_le_succ hle) h
        | prim k => exact h
        | slice e => exact h
        | arr n e => exact h
        | tmap k e => exact h
        | strct fs caps => exact h
        | interf => exact h
        | func => exact h
        | chan => exact h
        | unsafePointer => exact h

theorem baseTypeO_eq_baseTypeFuel (env : Env) :
    ∀ (fuel : Nat) {i b : Nat}, baseTypeO env fuel i = some b →
      baseTypeFuel env fuel i = b := by
  intro fuel
  induction fuel with
  | zero =>
    intro i b h
    exact absurd h (by simp [baseTypeO])
  | succ f ih =>
    intro i b h
    simp only [baseTypeO] at h
    simp only [baseTypeFuel]
    cases hl : lookupType env i with
    | none =>
      rw [hl] at h
      exact Option.some.inj h
    | some d =>
      obtain ⟨nm2, body⟩ := d
      rw [hl] at h
      cases body with
      | ptr e => exact ih h
      | prim k => exact Option.some.inj h
      | slice e => exact Option.some.inj h
      | arr n e => exact Option.some.inj h
      | tmap k e => exact Option.some.inj h
      | strct fs caps => exact Option.some.inj h
      | interf => exact Option.some.inj h
      | func => exact Option.some.inj h
      | chan => exact Option.some.inj h
      | unsafePointer => exact Option.some.inj h

end ModelReflect

namespace ModelReflect

theorem ptrChain_facts (env : Env) :
    ∀ (fuel : Nat) {i b : Nat}, baseTypeO env fuel i = some b →
      (∀ g, (baseTypeO env g i).isSome = true → fuel ≤ g) →
      (∀ v ∈ ptrChain env fuel i, v ∈ envKeys env) ∧
      (∀ v ∈ ptrChain env fuel i, ∃ g, g ≤ fuel ∧
        (baseTypeO env g v).isSome = true) ∧
      (ptrChain env fuel i).Nodup ∧
      (ptrChain env fuel i).length + 1 = fuel := by
  intro fuel
  induction fuel with
  | zero =>
    intro i b h _
    exact absurd h (by simp [baseTypeO])
  | succ f ih =>
    intro i b h hmin
    cases hl : lookupType env i with
    | none =>
      have hc : ptrChain env (f + 1) i = [] := by simp [ptrChain, hl]
      have h1 : (baseTypeO env 1 i).isSome = true := by simp [baseTypeO, hl]
      have h2 := hmin 1 h1
      rw [hc]
      exact ⟨fun v hv => absurd hv (List.not_mem_nil v),
        fun v hv => absurd hv (List.not_mem_nil v), List.nodup_nil,
        by simp only [List.length_nil]; omega⟩
    | some d =>
      obtain ⟨nm2, body⟩ := d
      cases body with
      | ptr e =>
        have hc : ptrChain env (f + 1) i = i :: ptrChain env f e := by
          simp [ptrChain, hl]
        have hred : baseTypeO env (f + 1) i = baseTypeO env f e := by
          simp [baseTypeO, hl]
        have hstep : baseTypeO env f e = some b := by
          rw [← hred]
          exact h
        have hmin' : ∀ g, (baseTypeO env g e).isSome = true → f ≤ g := by
          intro g hg
          have hgi : (baseTypeO env (g + 1) i).isSome = true := by
            have hred2 : baseTypeO env (g + 1) i = baseTypeO env g e := by
              simp [baseTypeO, hl]
            rw [hred2]
            exact hg
          have := hmin (g + 1) hgi
          omega
        obtain ⟨hsub, hbud, hnd, hlen⟩ := ih hstep hmin'
        rw [hc]
        refine ⟨?_, ?_, ?_, ?_⟩
        · intro v hv
          rcases List.mem_cons.mp hv with rfl | hv'
          · exact lookup_mem_envKeys hl
          · exact hsub v hv'
        · intro v hv
          rcases List.mem_cons.mp hv with rfl | hv'
          · refine ⟨f + 1, Nat.le_refl _, ?_⟩
            rw [h]
            rfl
          · obtain ⟨g, hg1, hg2⟩ := hbud v hv'
            exact ⟨g, by omega, hg2⟩
        · rw [List.nodup_cons]
          refine ⟨fun hmem => ?_, hnd⟩
          obtain ⟨g, hg1, hg2⟩ := hbud i hmem
          have := hmin g hg2
          omega
        · rw [List.length_cons]
          omega
      | prim k =>
        have hc : ptrChain env (f + 1) i = [] := by simp [ptrChain, hl]
        have h1 : (baseTypeO env 1 i).isSome = true := by simp [baseTypeO, hl]
        have h2 := hmin 1 h1
        rw [hc]
        exact ⟨fun v hv => absurd hv (List.not_mem_nil v),
          fun v hv => absurd hv (List.not_mem_nil v), List.nodup_nil,
          by simp only [List.length_nil]; omega⟩
      | slice e =>
        have hc : ptrChain env (f + 1) i = [] := by simp [ptrChain, hl]
        have h1 : (baseTypeO env 1 i).isSome = true := by simp [baseTypeO, hl]
        have h2 := hmin 1 h1
        rw [hc]
        exact ⟨fun v hv => absurd hv (List.not_mem_nil v),
          fun v hv => absurd hv (List.not_mem_nil v), List.nodup_nil,
          by simp only [List.length_nil]; omega⟩
      | arr n e =>
        have hc : ptrChain env (f + 1) i = [] := by simp [ptrChain, hl]
        have h1 : (baseTypeO env 1 i).isSome = true := by simp [baseTypeO, hl]
        have h2 := hmin 1 h1
        rw [hc]
        exact ⟨fun v hv => absurd hv (List.not_mem_nil v),
          fun v hv => absurd hv (List.not_mem_nil v), List.nodup_nil,
          by simp only [List.length_nil]; omega⟩
      | tmap k e =>
        have hc : ptrChain env (f + 1) i = [] := by simp [ptrChain, hl]
        have h1 : (baseTypeO env 1 i).isSome = true := by simp [baseTypeO, hl]
        have h2 := hmin 1 h1
        rw [hc]
        exact ⟨fun v hv => absurd hv (List.not_mem_nil v),
          fun v hv => absurd hv (List.not_mem_nil v), List.nodup_nil,
          by simp only [List.length_nil]; omega⟩
      | strct fs caps =>
        have hc : ptrChain env (f + 1) i = [] := by simp [ptrChain, hl]
        have h1 : (baseTypeO env 1 i).isSome = true := by simp [baseTypeO, hl]
        have h2 := hmin 1 h1
        rw [hc]
        exact ⟨fun v hv => absurd hv (List.not_mem_nil v),
          fun v hv => absurd hv (List.not_mem_nil v), List.nodup_nil,
          by simp only [List.length_nil]; omega⟩
      | interf =>
        have hc : ptrChain env (f + 1) i = [] := by simp [ptrChain, hl]
        have h1 : (baseTypeO env 1 i).isSome = true := by simp [baseTypeO, hl]
        have h2 := hmin 1 h1
        rw [hc]
        exact ⟨fun v hv => absurd hv (List.not_mem_nil v),
          fun v hv => absurd hv (List.not_mem_nil v), List.nodup_nil,
          by simp only [List.length_nil]; omega⟩
      | func =>
        have hc : ptrChain env (f + 1) i = [] := by simp [ptrChain, hl]
        have h1 : (baseTypeO env 1 i).isSome = true := by simp [baseTypeO, hl]
        have h2 := hmin 1 h1
        rw [hc]
        exact ⟨fun v hv => absurd hv (List.not_mem_nil v),
          fun v hv => absurd hv (List.not_mem_nil v), List.nodup_nil,
          by simp only [List.length_nil]; omega⟩
      | chan =>
        have hc : ptrChain env (f + 1) i = [] := by simp [ptrChain, hl]
        have h1 : (baseTypeO env 1 i).isSome = true := by simp [baseTypeO, hl]
        have h2 := hmin 1 h1
        rw [hc]
        exact ⟨fun v hv => absurd hv (List.not_mem_nil v),
          fun v hv => absurd hv (List.not_mem_nil v), List.nodup_nil,
          by simp only [List.length_nil]; omega⟩
      | unsafePointer =>
        have hc : ptrChain env (f + 1) i = [] := by simp [ptrChain, hl]
        have h1 : (baseTypeO env 1 i).isSome = true := by simp [baseTypeO, hl]
        have h2 := hmin 1 h1
        rw [hc]
        exact ⟨fun v hv => absurd hv (List.not_mem_nil v),
          fun v hv => absurd hv (List.not_mem_nil v), List.nodup_nil,
          by simp only [List.length_nil]; omega⟩

end ModelReflect

namespace ModelReflect

theorem baseTypeO_complete (env : Env)
    (hptr : ∀ j : Nat, ∃ fuel, (baseTypeO env fuel j).isSome = true)
    (i : Nat) :
    baseTypeO env (env.length + 1) i = some (baseType env i) := by
  have hex := hptr i
  have hm : (baseTypeO env (Nat.find hex) i).isSome = true := Nat.find_spec hex
  have hmin : ∀ g, (baseTypeO env g i).isSome = true → Nat.find hex ≤ g :=
    fun g hg => Nat.find_min' hex hg
  obtain ⟨b, hb⟩ := Option.isSome_iff_exists.mp hm
  obtain ⟨hsub, _, hnd, hlen⟩ := ptrChain_facts env (Nat.find hex) hb hmin
  have hchain : (ptrChain env (Nat.find hex) i).length ≤ env.length := by
    have h1 : (ptrChain env (Nat.find hex) i).Subperm (envKeys env) :=
      List.Nodup.subperm hnd (fun v hv => hsub v hv)
    have h2 := h1.length_le
    simpa [envKeys] using h2
  have hb2 : baseTypeO env (env.length + 1) i = some b :=
    baseTypeO_mono env (Nat.find hex) (by omega) hb
  rw [hb2]
  have hbt : baseTypeFuel env (env.length + 1) i = b :=
    baseTypeO_eq_baseTypeFuel env (env.length + 1) hb2
  show some b = some (baseTypeFuel env (env.length + 1) i)
  rw [hbt]

/-- **C3** counterexample: the original claim asserts that signature
building terminates on *every* finite type-descriptor graph, cyclic ones
included.  It does not: `baseType`'s pointer-unwrap loop
(model_reflect.go lines 89-94) carries no cycle guard, and `typeToString`
resolves `baseType` *before* consulting the ancestry path, so on the legal
pointer-cyclic Go type `type P *P` — the one-node graph `envPtrLoop`,
whose sole descriptor is a pointer to itself — the loop never completes:
the step-indexed loop model returns `none` at every budget, and the
program's `New` diverges before any `LoopDetected` guard can fire. -/
theorem C3_counterexample :
    (∀ fuel, baseTypeO envPtrLoop fuel 0 = none) ∧
    lookupType envPtrLoop 0 = some ⟨"P", TBody.ptr 0⟩ := by
  refine ⟨?_, rfl⟩
  intro fuel
  induction fuel with
  | zero => rfl
  | succ f ih =>
    show baseTypeO envPtrLoop f 0 = none
    exact ih

/-- **C3** (amended): signature building terminates on every finite
type-descriptor graph on which the pointer-unwrap loop of `baseType`
completes on every node (pointer-acyclic graphs; the loop has no cycle
guard, so on a pointer-cyclic descriptor such as `type P *P` it spins
forever — the counterexample).  On such a graph the unwrap loop completes
within `env.length + 1` iterations and the embedding's truncated
`baseType` is its true value (first conjunct); the walk's result is
invariant under any recursion budget exceeding the number of unvisited
environment entries along the current path, i.e. the recursion bottoms
out before the budget can run dry (second conjunct); and whenever the
base type of the node being visited already lies on the current ancestry
path, the builder yields the sentinel `"..."` for exactly that branch
together with a `LoopDetected` diagnostic naming the type, and the field
expander aborts only that branch with the diagnostic (third and fourth
conjuncts — siblings continue). -/
theorem C3_ptr_acyclic_termination_amended (env : Env)
    (hptr : ∀ j : Nat, ∃ fuel, (baseTypeO env fuel j).isSome = true) :
    (∀ i, baseTypeO env (env.length + 1) i = some (baseType env i)) ∧
    (∀ (s : Option Nat) (types : List Nat) (f1 f2 : Nat),
      freshCount env types < f1 → freshCount env types < f2 →
      typeToStringFuel f1 env s types = typeToStringFuel f2 env s types) ∧
    (∀ (i0 : Nat) (types : List Nat) (fuel : Nat),
      isConcrete env (baseType env i0) = true → baseType env i0 ∈ types →
      typeToStringFuel (fuel + 1) env (some i0) types =
        ("...", [loopMsg env (baseType env i0)])) ∧
    (∀ (f : SField) (types : List Nat) (acc : List (List SField)) (fuel : Nat),
      baseType env f.typeId ∈ types →
      expandFieldFuel (fuel + 1) env f types acc =
        (ensureLevels acc types.length, [loopMsg env (baseType env f.typeId)])) := by
  refine ⟨baseTypeO_complete env hptr,
    fun s types f1 f2 h1 h2 => tts_fuel_stable env f1 f2 s types h1 h2,
    fun i0 types fuel hc hm => ?_, fun f types acc fuel hm => ?_⟩
  · show ttsStep env (fun s ty => typeToStringFuel fuel env s ty) (some i0) types = _
    simp [ttsStep, hc, hm]
  · simp [expandFieldFuel, hm]

/-- **C3** amended witness, on the self-referential graph `envLoop` (a
struct holding a pointer back to itself — pointer-acyclic, since the
unwrap loop from the pointer node stops at the struct): the unwrap loop's
completed value at the pointer node, budget irrelevance at the root, the
`"..."` sentinel with its diagnostic when the struct is revisited, and
the field expander's branch abort. -/
theorem C3_amended_witness :
    baseTypeO envLoop (envLoop.length + 1) 1 = some (baseType envLoop 1) ∧
    typeToStringFuel 4 envLoop (some 0) [] = typeToStringFuel 7 envLoop (some 0) [] ∧
    typeToStringFuel 1 envLoop (some 1) [0] = ("...", [loopMsg envLoop 0]) ∧
    expandFieldFuel 2 envLoop ⟨"B", 1, true, false, []⟩ [0] [] =
      (ensureLevels [] 1, [loopMsg envLoop 0]) := by
  have hptr : ∀ j : Nat, ∃ fuel, (baseTypeO envLoop fuel j).isSome = true :=
    fun j => ⟨2, by
      match j with
      | 0 => rfl
      | 1 => rfl
      | 2 => rfl
      | (n + 3) => rfl⟩
  exact ⟨(C3_ptr_acyclic_termination_amended envLoop hptr).1 1,
    (C3_ptr_acyclic_termination_amended envLoop hptr).2.1 (some 0) [] 4 7
      (by decide) (by decide),
    (C3_ptr_acyclic_termination_amended envLoop hptr).2.2.1 1 [0] 0
      (by decide) (by decide),
    (C3_ptr_acyclic_termination_amended envLoop hptr).2.2.2
      ⟨"B", 1, true, false, []⟩ [0] [] 1 (by decide)⟩

end ModelReflect
